import Mathlib

/-!
Header detection and row projection of the excelparser package.

A shallow embedding of `excelparser/parse.go` (`ParseExcel`, `detectHeaderRow`,
`containsIgnoreCase`) together with the properties of the header-row detector,
of the per-sheet extraction, of the result map a call returns and of the
admission gate that bounds the goroutines.

What Go leaves open is a parameter of the model: the order of a range over a
map (`MapOrder`), the order in which the goroutines reach the critical section
(`Schedule`), and the interleaving of their steps (`poolRun`).

Cells are Go strings holding valid UTF-8; they are modelled as Lean `String`s,
that is, sequences of Unicode scalar values.  Go `int`s are modelled as `Int`
(`HeaderRowScanLimit`) or `Nat` (lengths and indices); no arithmetic in the
program can leave the 64-bit range, since every sum is bounded by a slice
length plus six.
-/

namespace ExcelParser

/-! ## Library functions used by the program -/

/-- Go's `unicode.IsSpace`: the Latin-1 spaces `\t \n \v \f \r`, space, U+0085,
U+00A0, and beyond Latin-1 the code points with the `White_Space` property. -/
def isSpace (c : Char) : Bool :=
  let n := c.toNat
  (9 ≤ n && n ≤ 13) || n == 0x20 || n == 0x85 || n == 0xA0 || n == 0x1680 ||
  (0x2000 ≤ n && n ≤ 0x200A) || n == 0x2028 || n == 0x2029 || n == 0x202F ||
  n == 0x205F || n == 0x3000

/-- Runes of a string with leading and trailing white space removed. -/
def trimRunes (cs : List Char) : List Char :=
  ((cs.dropWhile isSpace).reverse.dropWhile isSpace).reverse

/-- Go's `strings.TrimSpace`. -/
def TrimSpace (s : String) : String :=
  ⟨trimRunes s.data⟩

/-- One rune comparison of Go's `strings.EqualFold`.  Equal runes match; else
the runes are ordered so that `lo < hi`; when `hi` is ASCII they match only as
an upper/lower case pair; otherwise the outcome is that of walking
`unicode.SimpleFold` from `lo`, given by `orbit lo hi` (the Unicode case-orbit
tables are outside the repository and enter as a parameter). -/
def runeFoldEq (orbit : Char → Char → Bool) (sr tr : Char) : Bool :=
  if tr = sr then true
  else
    let lo := if tr.toNat < sr.toNat then tr else sr
    let hi := if tr.toNat < sr.toNat then sr else tr
    if hi.toNat < 0x80 then
      decide (65 ≤ lo.toNat) && decide (lo.toNat ≤ 90) && decide (hi.toNat = lo.toNat + 32)
    else orbit lo hi

/-- Rune-by-rune loop of `strings.EqualFold`: both strings must be exhausted
together and every pair of runes must match under simple case folding. -/
def equalFoldRunes (orbit : Char → Char → Bool) : List Char → List Char → Bool
  | [], [] => true
  | [], _ :: _ => false
  | _ :: _, [] => false
  | sr :: s, tr :: t => runeFoldEq orbit sr tr && equalFoldRunes orbit s t

/-- Go's `strings.EqualFold`. -/
def EqualFold (orbit : Char → Char → Bool) (s t : String) : Bool :=
  equalFoldRunes orbit s.data t.data

/-! ## `detectHeaderRow` -/

/-- The counting loops of `detectHeaderRow`
(`for _, cell := range row { if strings.TrimSpace(cell) != "" { n++ } }`). -/
def countNonEmpty (row : List String) : Nat :=
  row.foldl (fun n cell => if TrimSpace cell ≠ "" then n + 1 else n) 0

/-- The look-ahead loop `for j := i + 1; j < len(rows) && j < i+6; j++`:
the number of rows among those visited with at least 3 non-empty cells. -/
def lookAhead (rows : List (List String)) (i : Nat) : Nat :=
  (List.range' (i + 1) (min rows.length (i + 6) - (i + 1))).foldl
    (fun validDataRows j =>
      if countNonEmpty (rows.getD j []) ≥ 3 then validDataRows + 1 else validDataRows) 0

/-- The candidate loop `for i := 0; i < scanLimit; i++`, entered at index `i`
with `remaining = scanLimit - i` iterations left; returns at the first
accepted candidate and falls back to 0 when the loop ends. -/
def scanFrom (rows : List (List String)) : Nat → Nat → Nat
  | 0, _ => 0
  | remaining + 1, i =>
    if countNonEmpty (rows.getD i []) < 3 then scanFrom rows remaining (i + 1)
    else if lookAhead rows i ≥ 4 then i
    else scanFrom rows remaining (i + 1)

/-- The function `detectHeaderRow(rows [][]string, scanLimit int) int`. -/
def detectHeaderRow (rows : List (List String)) (scanLimit : Int) : Nat :=
  if rows.length = 0 then 0
  else
    let scanLimit : Nat :=
      if scanLimit ≤ 0 ∨ scanLimit > (rows.length : Int) then rows.length
      else scanLimit.toNat
    scanFrom rows scanLimit 0

/-- Eight-row sheet of the header-detection scenario. -/
def scenarioRows : List (List String) :=
  [["a", "b"], ["", "", ""], ["ID", "Name", "Amount"], ["1", "Bob", "5"],
   ["2", "Sue", "6"], ["3", "Al", "7"], ["4", "Meg", "8"], ["5", "Cid", "9"]]

/-! ## `containsIgnoreCase` -/

/-- The function `containsIgnoreCase(arr []string, target string) bool`. -/
def containsIgnoreCase (orbit : Char → Char → Bool) (arr : List String) (target : String) :
    Bool :=
  match arr with
  | [] => false
  | a :: rest => if EqualFold orbit a target then true else containsIgnoreCase orbit rest target

/-! ## Data model -/

/-- The struct `ParseOptions`; `HeaderMap` is the Go map given by its entries
(a key occurs at most once in a Go map). -/
structure ParseOptions where
  SheetNames : List String
  HeaderFilter : List String
  HeaderMap : List (String × String)
  TrimSpace : Bool
  SkipEmpty : Bool
  HeaderRowAutoDetect : Bool
  HeaderRowScanLimit : Int
  MaxConcurrentSheets : Int
  deriving DecidableEq, Repr

/-- A Go `map[string]string` under construction: its entries, one per key. -/
abbrev Record := List (String × String)

/-- The map read `m[k]` with the comma-ok form. -/
def Record.get (r : Record) (k : String) : Option String :=
  match r with
  | [] => none
  | (k', v) :: rest => if k' = k then some v else Record.get rest k

/-- The map write `m[k] = v`: replaces the value of an existing key, adds the
key otherwise. -/
def Record.set (r : Record) (k v : String) : Record :=
  match r with
  | [] => [(k, v)]
  | (k', v') :: rest => if k' = k then (k', v) :: rest else (k', v') :: Record.set rest k v

/-- Two records hold the same key/value pairs. -/
def Record.Same (a b : Record) : Prop :=
  ∀ k, a.get k = b.get k

/-- The struct `SheetResult`. -/
structure SheetResult where
  Headers : List String
  Records : List Record
  RecordCount : Nat
  deriving DecidableEq, Repr

/-- What the goroutine of one sheet does with the rows it has read: it returns
without storing anything, it stores a `SheetResult` under the sheet name, or
an index expression goes out of range. -/
inductive SheetOutcome where
  | skipped
  | stored (r : SheetResult)
  | outOfRange
  deriving DecidableEq, Repr

/-- Two sheet results are identical: same headers, records in the same order
with the same key/value pairs, same record count. -/
def SheetResult.Same (a b : SheetResult) : Prop :=
  a.Headers = b.Headers ∧ List.Forall₂ Record.Same a.Records b.Records ∧
    a.RecordCount = b.RecordCount

/-- Two runs over a sheet end identically. -/
def SheetOutcome.Same : SheetOutcome → SheetOutcome → Prop
  | SheetOutcome.skipped, SheetOutcome.skipped => True
  | SheetOutcome.outOfRange, SheetOutcome.outOfRange => True
  | SheetOutcome.stored a, SheetOutcome.stored b => a.Same b
  | _, _ => False

/-- The order in which `for idx, header := range headerIndexes` yields the
entries of the map; Go leaves it unspecified and it may change from one
`range` statement to the next.  `order r entries` is the sequence yielded for
the `r`-th data row when the map holds `entries`. -/
abbrev MapOrder := Nat → List (Nat × String) → List (Nat × String)

/-- A `range` over a map yields every entry exactly once. -/
def MapOrder.Valid (order : MapOrder) : Prop :=
  ∀ r entries, (order r entries).Perm entries

/-- The order that visits the columns from left to right. -/
def ascending : MapOrder := fun _ entries => entries

/-- The order that visits the columns from right to left. -/
def descending : MapOrder := fun _ entries => entries.reverse

/-! ## The per-sheet body of `ParseExcel` -/

/-- The loop filling `headerIndexes` (lines 83-91), entered at column `idx`:
the entries `idx ↦ h` of the retained columns, in column order. -/
def headerIndexesFrom (orbit : Char → Char → Bool) (opts : ParseOptions) :
    Nat → List String → List (Nat × String)
  | _, [] => []
  | idx, h :: rest =>
    let h := if opts.TrimSpace then TrimSpace h else h
    if opts.HeaderFilter.length = 0 ∨ containsIgnoreCase orbit opts.HeaderFilter h = true then
      (idx, h) :: headerIndexesFrom orbit opts (idx + 1) rest
    else headerIndexesFrom orbit opts (idx + 1) rest

/-- The map `headerIndexes` built from the header row. -/
def headerIndexes (orbit : Char → Char → Bool) (opts : ParseOptions) (headers : List String) :
    List (Nat × String) :=
  headerIndexesFrom orbit opts 0 headers

/-- Body of the inner loop (lines 98-112) for the entry `idx ↦ header`. -/
def projectStep (opts : ParseOptions) (row : List String) (record : Record)
    (e : Nat × String) : Record :=
  if e.1 < row.length then
    let val := row.getD e.1 ""
    let val := if opts.TrimSpace then TrimSpace val else val
    if opts.SkipEmpty = true ∧ val = "" then record
    else
      match opts.HeaderMap.lookup e.2 with
      | some newName => record.set newName val
      | none => record.set e.2 val
  else record

/-- The record built for one data row when the entries of `headerIndexes` are
yielded in the sequence `visit` (lines 96-113). -/
def buildRecord (opts : ParseOptions) (visit : List (Nat × String)) (row : List String) :
    Record :=
  visit.foldl (projectStep opts row) []

/-- The loop over `rows[headerRowIdx+1:]` (lines 95-117), entered at the
`r`-th data row with the records collected so far. -/
def parseRows (order : MapOrder) (opts : ParseOptions) (entries : List (Nat × String)) :
    Nat → List (List String) → List Record → List Record
  | _, [], localData => localData
  | r, row :: rest, localData =>
    let record := buildRecord opts (order r entries) row
    if record.length > 0 then parseRows order opts entries (r + 1) rest (localData ++ [record])
    else parseRows order opts entries (r + 1) rest localData

/-- The header row index chosen at lines 73-80. -/
def headerRowIdx (opts : ParseOptions) (rows : List (List String)) : Nat :=
  if opts.HeaderRowAutoDetect then
    detectHeaderRow rows (if opts.HeaderRowScanLimit ≤ 0 then 10 else opts.HeaderRowScanLimit)
  else 0

/-- Lines 68-127 of `ParseExcel`: what the goroutine does with the rows of one
sheet. -/
def processSheet (orbit : Char → Char → Bool) (order : MapOrder) (opts : ParseOptions)
    (rows : List (List String)) : SheetOutcome :=
  if rows.length = 0 then SheetOutcome.skipped
  else
    match rows.get? (headerRowIdx opts rows) with
    | none => SheetOutcome.outOfRange
    | some headers =>
      let localData :=
        parseRows order opts (headerIndexes orbit opts headers) 0
          (rows.drop (headerRowIdx opts rows + 1)) []
      SheetOutcome.stored
        { Headers := headers, Records := localData, RecordCount := localData.length }

/-! ## Specification-side vocabulary for header detection -/

/-- Number of cells of a row that are non-empty after trimming. -/
def nonEmptyCells (row : List String) : Nat :=
  row.countP (fun cell => decide (TrimSpace cell ≠ ""))

/-- The effective scan limit: `scanLimit` when `1 ≤ scanLimit ≤ len(rows)`,
otherwise `len(rows)`. -/
def effectiveLimit (rows : List (List String)) (scanLimit : Int) : Nat :=
  if 1 ≤ scanLimit ∧ scanLimit ≤ (rows.length : Int) then scanLimit.toNat else rows.length

/-- Row `i` has at least 3 non-empty cells and at least 4 of the rows
`i+1 .. min(len(rows), i+6)-1` have at least 3 non-empty cells each. -/
def Qualifies (rows : List (List String)) (i : Nat) : Prop :=
  3 ≤ nonEmptyCells (rows.getD i []) ∧
  4 ≤ ((Finset.Ico (i + 1) (min rows.length (i + 6))).filter
        (fun j => 3 ≤ nonEmptyCells (rows.getD j []))).card

instance (rows : List (List String)) (i : Nat) : Decidable (Qualifies rows i) := by
  unfold Qualifies; infer_instance

/-! ## Specification-side vocabulary for row projection -/

/-- Header cell `i`, trimmed when `TrimSpace` is set. -/
def headerName (opts : ParseOptions) (headers : List String) (i : Nat) : String :=
  if opts.TrimSpace then TrimSpace (headers.getD i "") else headers.getD i ""

/-- Column `i` of the header row is retained: the filter is empty or contains
the header name case-insensitively. -/
def Retained (orbit : Char → Char → Bool) (opts : ParseOptions) (headers : List String)
    (i : Nat) : Prop :=
  i < headers.length ∧
    (opts.HeaderFilter = [] ∨
      containsIgnoreCase orbit opts.HeaderFilter (headerName opts headers i) = true)

instance (orbit : Char → Char → Bool) (opts : ParseOptions) (headers : List String) (i : Nat) :
    Decidable (Retained orbit opts headers i) := by
  unfold Retained; infer_instance

/-- Output key of column `i`: the name `HeaderMap` gives the header when the
header is one of its keys, the header itself otherwise. -/
def outKey (opts : ParseOptions) (headers : List String) (i : Nat) : String :=
  (opts.HeaderMap.lookup (headerName opts headers i)).getD (headerName opts headers i)

/-- Cell `i` of a data row, trimmed when `TrimSpace` is set. -/
def cellValue (opts : ParseOptions) (row : List String) (i : Nat) : String :=
  if opts.TrimSpace then TrimSpace (row.getD i "") else row.getD i ""

/-- The retained headers have pairwise distinct output keys. -/
def DistinctKeys (orbit : Char → Char → Bool) (opts : ParseOptions) (headers : List String) :
    Prop :=
  ∀ i j, Retained orbit opts headers i → Retained orbit opts headers j → i ≠ j →
    outKey opts headers i ≠ outKey opts headers j

/-- Column `i` contributes a field for the row: it is within the row and its
value is not skipped as empty. -/
def Contributes (opts : ParseOptions) (row : List String) (i : Nat) : Prop :=
  i < row.length ∧ ¬ (opts.SkipEmpty = true ∧ cellValue opts row i = "")

instance (opts : ParseOptions) (row : List String) (i : Nat) :
    Decidable (Contributes opts row i) := by
  unfold Contributes; infer_instance

/-! ## Writes of the inner loop -/

/-- The write `record[key] = val` one entry of `headerIndexes` performs for a
row, if any. -/
def contribution (opts : ParseOptions) (row : List String) (e : Nat × String) :
    Option (String × String) :=
  if e.1 < row.length ∧ ¬ (opts.SkipEmpty = true ∧ cellValue opts row e.1 = "") then
    some ((opts.HeaderMap.lookup e.2).getD e.2, cellValue opts row e.1)
  else none

/-- A sequence of map writes applied to a record. -/
def applyWrites (r : Record) (ws : List (String × String)) : Record :=
  ws.foldl (fun acc kv => acc.set kv.1 kv.2) r

/-! ## Specification-side vocabulary for the sheet result -/

/-- The records of the data rows: each row projected in original order (the
`r`-th data row with the visiting order of the `r`-th `range`), the rows whose
projection has no field dropped. -/
def projectRows (order : MapOrder) (opts : ParseOptions) (entries : List (Nat × String))
    (dataRows : List (List String)) : List Record :=
  (dataRows.enum.map (fun p => buildRecord opts (order p.1 entries) p.2)).filter
    (fun record => decide (0 < record.length))

/-! ## Concrete configurations -/

/-- Case-orbit data under which no rune folds to a different non-ASCII rune;
the comparison of two ASCII runes never consults it. -/
def asciiOrbit : Char → Char → Bool := fun _ _ => false

/-- The options with every field at its Go zero value. -/
def zeroOpts : ParseOptions :=
  { SheetNames := [], HeaderFilter := [], HeaderMap := [], TrimSpace := false,
    SkipEmpty := false, HeaderRowAutoDetect := false, HeaderRowScanLimit := 0,
    MaxConcurrentSheets := 0 }

/-- Options of the filter-and-rename scenario. -/
def filterRenameOpts : ParseOptions :=
  { zeroOpts with HeaderFilter := ["name", "amount"], HeaderMap := [("Amount", "amt")] }

/-- Options of the skip-empty scenario. -/
def trimSkipOpts : ParseOptions :=
  { zeroOpts with TrimSpace := true, SkipEmpty := true }

/-- Options with `SkipEmpty` set and `TrimSpace` unset. -/
def skipOnlyOpts : ParseOptions :=
  { zeroOpts with SkipEmpty := true }

/-- Header row and data row of the filter-and-rename scenario. -/
def filterRenameSheet : List (List String) :=
  [["Name", "Amount", "Note"], ["Bob", "5", "skip-me"]]

/-- Header row and data row of the skip-empty scenario. -/
def trimSkipSheet : List (List String) :=
  [["Name", "Amount"], [" Bob ", "  "]]

/-- A sheet whose two header cells are the same text. -/
def duplicateHeaderSheet : List (List String) :=
  [["A", "A"], ["x", "y"]]

/-- A sheet with two different headers. -/
def twoColumnSheet : List (List String) :=
  [["A", "B"], ["x", "y"]]

/-- A sheet whose only data cell is one blank. -/
def blankCellSheet : List (List String) :=
  [["A"], [" "]]

/-! ## `ParseExcel`: the document, the goroutines and the result map -/

/-- The opened `*excelize.File` as `ParseExcel` uses it: `GetSheetList()` and
`GetRows(name)`, which returns the rows of a sheet or an error. -/
structure Workbook where
  GetSheetList : List String
  GetRows : String → Except String (List (List String))

/-- The Go map `result` of type `map[string]SheetResult`: its entries, one per
key. -/
abbrev ResultMap := List (String × SheetResult)

/-- The map read `result[name]` with the comma-ok form. -/
def ResultMap.get (m : ResultMap) (name : String) : Option SheetResult :=
  match m with
  | [] => none
  | (n, r) :: rest => if n = name then some r else ResultMap.get rest name

/-- The map write `result[name] = r`. -/
def ResultMap.set (m : ResultMap) (name : String) (r : SheetResult) : ResultMap :=
  match m with
  | [] => [(name, r)]
  | (n, r') :: rest =>
    if n = name then (n, r) :: rest else (n, r') :: ResultMap.set rest name r

/-- How the goroutines of one call interleave, as far as the result can tell:
`mapOrder g` is the order of the map ranges inside goroutine number `g`, and
`writeOrder tasks` is the sequence in which the goroutines (numbered, with
their sheet names) reach the critical section guarded by `mu`. -/
structure Schedule where
  mapOrder : Nat → MapOrder
  writeOrder : List (Nat × String) → List (Nat × String)

/-- Every map range yields each entry once and every goroutine launched runs
to its end once (`wg.Wait()` returns only then). -/
def Schedule.Valid (sched : Schedule) : Prop :=
  (∀ g, (sched.mapOrder g).Valid) ∧ ∀ tasks, (sched.writeOrder tasks).Perm tasks

/-- The schedule in which the goroutines write in launch order and visit the
columns from left to right. -/
def inLaunchOrder : Schedule :=
  { mapOrder := fun _ => ascending, writeOrder := fun tasks => tasks }

/-- How a call of `ParseExcel` ends: it returns the error of `OpenFile`
wrapped, it returns the result map with a nil error, or a goroutine panics. -/
inductive ParseOutcome where
  | failed (err : String)
  | returned (result : ResultMap)
  | crashed
  deriving DecidableEq, Repr

/-- The sheet list chosen at lines 36-39. -/
def sheetsOf (f : Workbook) (opts : ParseOptions) : List String :=
  if opts.SheetNames.length = 0 then f.GetSheetList else opts.SheetNames

/-- Lines 63-127: the goroutine of one sheet reads the rows and, unless the
read fails (the failure is printed and the goroutine returns), processes them. -/
def sheetTask (orbit : Char → Char → Bool) (order : MapOrder) (opts : ParseOptions)
    (f : Workbook) (sheetName : String) : SheetOutcome :=
  match f.GetRows sheetName with
  | Except.error _ => SheetOutcome.skipped
  | Except.ok rows => processSheet orbit order opts rows

/-- The effect of one finished goroutine on the shared map (lines 125-127). -/
def commit (result : ResultMap) (o : String × SheetOutcome) : ResultMap :=
  match o.2 with
  | SheetOutcome.stored r => result.set o.1 r
  | _ => result

/-- The function `ParseExcel(filePath, opts)`, given what
`excelize.OpenFile(filePath)` returns. -/
def ParseExcel (orbit : Char → Char → Bool) (sched : Schedule)
    (opened : Except String Workbook) (opts : ParseOptions) : ParseOutcome :=
  match opened with
  | Except.error err => ParseOutcome.failed ("failed to open excel file: " ++ err)
  | Except.ok f =>
    let outcomes := (sched.writeOrder (sheetsOf f opts).enum).map
      (fun t => (t.2, sheetTask orbit (sched.mapOrder t.1) opts f t.2))
    if outcomes.any (fun o => decide (o.2 = SheetOutcome.outOfRange)) then ParseOutcome.crashed
    else ParseOutcome.returned (outcomes.foldl commit [])

/-! ## The admission gate of the goroutines -/

/-- Where a goroutine stands: before the send on `sema` (line 59), past it and
reading or processing its sheet, inside the critical section of `mu`, past the
critical section, or returned (the deferred receive from `sema` has run). -/
inductive Phase where
  | waiting
  | working
  | writing
  | wrote
  | exited
  deriving DecidableEq, Repr

/-- The goroutines of one call, the number of values buffered in the channel
`sema`, and whether `mu` is held. -/
structure PoolState where
  phases : List Phase
  buffered : Nat
  locked : Bool
  deriving DecidableEq, Repr

/-- The steps a goroutine can take: the send on `sema`, `mu.Lock()`,
`mu.Unlock()`, and the return with its deferred receive from `sema`. -/
inductive PoolEvent where
  | acquire (g : Nat)
  | lock (g : Nat)
  | unlock (g : Nat)
  | release (g : Nat)
  deriving DecidableEq, Repr

/-- The capacity of `sema` (lines 47-49): `MaxConcurrentSheets` when positive,
no channel at all otherwise. -/
def semaCapacity (opts : ParseOptions) : Option Nat :=
  if opts.MaxConcurrentSheets > 0 then some opts.MaxConcurrentSheets.toNat else none

/-- One step of the goroutines.  A send on the buffered channel proceeds only
while fewer values than its capacity are buffered and a receive only while a
value is buffered; without a channel the goroutine skips both.  A goroutine
may return straight from `working` (read error or empty sheet) or after its
write.  `none` when the step is not enabled. -/
def poolStep (capacity : Option Nat) (s : PoolState) : PoolEvent → Option PoolState
  | PoolEvent.acquire g =>
    if s.phases.get? g = some Phase.waiting then
      match capacity with
      | some k =>
        if s.buffered < k then
          some { s with phases := s.phases.set g Phase.working, buffered := s.buffered + 1 }
        else none
      | none => some { s with phases := s.phases.set g Phase.working }
    else none
  | PoolEvent.lock g =>
    if s.phases.get? g = some Phase.working ∧ s.locked = false then
      some { s with phases := s.phases.set g Phase.writing, locked := true }
    else none
  | PoolEvent.unlock g =>
    if s.phases.get? g = some Phase.writing then
      some { s with phases := s.phases.set g Phase.wrote, locked := false }
    else none
  | PoolEvent.release g =>
    if s.phases.get? g = some Phase.working ∨ s.phases.get? g = some Phase.wrote then
      match capacity with
      | some _ =>
        if 0 < s.buffered then
          some { s with phases := s.phases.set g Phase.exited, buffered := s.buffered - 1 }
        else none
      | none => some { s with phases := s.phases.set g Phase.exited }
    else none

/-- An interleaving: the steps taken one after the other from a state. -/
def poolRun (capacity : Option Nat) : PoolState → List PoolEvent → Option PoolState
  | s, [] => some s
  | s, e :: rest =>
    match poolStep capacity s e with
    | some s' => poolRun capacity s' rest
    | none => none

/-- The state when the launch loop starts: the `n` goroutines that the loop
starts have not reached the admission point, the channel is empty, `mu` is
free. -/
def poolInit (n : Nat) : PoolState :=
  { phases := List.replicate n Phase.waiting, buffered := 0, locked := false }

/-- A goroutine has acquired a slot and not yet released it. -/
def Phase.admitted : Phase → Bool
  | Phase.working => true
  | Phase.writing => true
  | Phase.wrote => true
  | _ => false

/-- Number of goroutines that hold a slot. -/
def admittedCount (s : PoolState) : Nat :=
  s.phases.countP Phase.admitted

/-! ## Concrete documents -/

/-- A document with the sheets `X` and `Y`: reading `X` fails and `Y` has no
rows. -/
def failingAndEmpty : Workbook :=
  { GetSheetList := ["X", "Y"],
    GetRows := fun name =>
      if name = "X" then Except.error "broken sheet" else Except.ok [] }

/-- A document with the sheets `X`, `Y` and `Z`: reading `X` fails, `Y` holds a
header row and a data row, `Z` holds a header row only. -/
def failingAndFilled : Workbook :=
  { GetSheetList := ["X", "Y", "Z"],
    GetRows := fun name =>
      if name = "X" then Except.error "broken sheet"
      else if name = "Y" then Except.ok twoColumnSheet
      else if name = "Z" then Except.ok [["A", "B"]]
      else Except.ok [] }

/-- Options with a bound of two concurrent sheets. -/
def twoAtATimeOpts : ParseOptions :=
  { zeroOpts with MaxConcurrentSheets := 2 }

/-- The working sheet list: `SheetNames` when non-empty, otherwise the full
sheet list of the document. -/
def workingSheets (f : Workbook) (opts : ParseOptions) : List String :=
  if opts.SheetNames ≠ [] then opts.SheetNames else f.GetSheetList

/-- A sheet whose only qualifying header row is row 10: ten one-cell rows, a
header row and five data rows. -/
def lateHeaderSheet : List (List String) :=
  List.replicate 10 ["x"] ++ [["ID", "Name", "Amount"]] ++ List.replicate 5 ["1", "2", "3"]

/-- Options with header detection on and the scan limit left at zero. -/
def autoDetectOpts : ParseOptions :=
  { zeroOpts with HeaderRowAutoDetect := true }

/-- Two data rows have the same length and agree on every cell of a retained
column. -/
def AgreeOnRetained (orbit : Char → Char → Bool) (opts : ParseOptions) (headers : List String)
    (row₁ row₂ : List String) : Prop :=
  row₁.length = row₂.length ∧
    ∀ i, Retained orbit opts headers i → row₁.getD i "" = row₂.getD i ""

/-- Options of a filter that keeps the column `Name` only. -/
def nameOnlyOpts : ParseOptions :=
  { zeroOpts with HeaderFilter := ["name"] }

/-! ## Lemmas on the counting loops -/

theorem foldl_count_eq {α : Type} (p : α → Prop) [DecidablePred p] (l : List α) (a : Nat) :
    l.foldl (fun n x => if p x then n + 1 else n) a = a + l.countP (fun x => decide (p x)) := by
  induction l generalizing a with
  | nil => simp
  | cons x xs ih =>
    simp only [List.foldl_cons, List.countP_cons, ih]
    by_cases hx : p x
    · simp [hx]; omega
    · simp [hx]

theorem countNonEmpty_eq (row : List String) : countNonEmpty row = nonEmptyCells row := by
  unfold countNonEmpty nonEmptyCells
  rw [foldl_count_eq (fun cell => TrimSpace cell ≠ "")]
  simp

theorem card_filter_Ico (p : Nat → Prop) [DecidablePred p] (a b : Nat) :
    ((Finset.Ico a b).filter p).card = (List.range' a (b - a)).countP (fun x => decide (p x)) := by
  have h : (Finset.Ico a b).val = ((List.range' a (b - a) : List Nat) : Multiset Nat) := rfl
  rw [Finset.card_def, Finset.filter_val, h, Multiset.filter_coe, Multiset.coe_card,
    List.countP_eq_length_filter]

theorem lookAhead_eq (rows : List (List String)) (i : Nat) :
    lookAhead rows i = ((Finset.Ico (i + 1) (min rows.length (i + 6))).filter
        (fun j => 3 ≤ nonEmptyCells (rows.getD j []))).card := by
  unfold lookAhead
  rw [card_filter_Ico, foldl_count_eq (fun j => countNonEmpty (rows.getD j []) ≥ 3)]
  simp [countNonEmpty_eq]

/-- One iteration of the candidate loop accepts row `i` exactly when the row
qualifies. -/
theorem accept_iff (rows : List (List String)) (i : Nat) :
    (¬ countNonEmpty (rows.getD i []) < 3 ∧ lookAhead rows i ≥ 4) ↔ Qualifies rows i := by
  unfold Qualifies
  rw [lookAhead_eq, countNonEmpty_eq]
  omega

theorem scanFrom_step (rows : List (List String)) (n i : Nat) :
    scanFrom rows (n + 1) i = if Qualifies rows i then i else scanFrom rows n (i + 1) := by
  have h := accept_iff rows i
  by_cases hq : Qualifies rows i
  · have h1 := h.mpr hq
    simp only [scanFrom, hq, if_true]
    rw [if_neg h1.1, if_pos h1.2]
  · simp only [scanFrom, hq, if_false]
    by_cases hc : countNonEmpty (rows.getD i []) < 3
    · rw [if_pos hc]
    · rw [if_neg hc, if_neg (fun hl => hq (h.mp ⟨hc, hl⟩))]

/-- The candidate loop returns the first qualifying index of its window. -/
theorem scanFrom_found (rows : List (List String)) (n i k : Nat)
    (hk : i ≤ k ∧ k < i + n) (hq : Qualifies rows k)
    (hmin : ∀ j, i ≤ j → j < k → ¬ Qualifies rows j) : scanFrom rows n i = k := by
  induction n generalizing i with
  | zero => omega
  | succ n ih =>
    rw [scanFrom_step]
    by_cases hi : Qualifies rows i
    · rw [if_pos hi]
      by_contra hne
      exact hmin i (le_refl i) (by omega) hi
    · rw [if_neg hi]
      have hik : i ≠ k := fun h => hi (h ▸ hq)
      exact ih (i + 1) (by omega) (fun j hj hjk => hmin j (by omega) hjk)

/-- The candidate loop falls back to 0 when no index of its window qualifies. -/
theorem scanFrom_none (rows : List (List String)) (n i : Nat)
    (hno : ∀ j, i ≤ j → j < i + n → ¬ Qualifies rows j) : scanFrom rows n i = 0 := by
  induction n generalizing i with
  | zero => rfl
  | succ n ih =>
    rw [scanFrom_step, if_neg (hno i (le_refl i) (by omega))]
    exact ih (i + 1) (fun j hj hjn => hno j (by omega) (by omega))

theorem detectHeaderRow_eq (rows : List (List String)) (scanLimit : Int) :
    detectHeaderRow rows scanLimit = scanFrom rows (effectiveLimit rows scanLimit) 0 := by
  unfold detectHeaderRow effectiveLimit
  by_cases h0 : rows.length = 0
  · have hl : ¬ (1 ≤ scanLimit ∧ scanLimit ≤ (rows.length : Int)) := by omega
    simp only [h0, if_true]
    rw [if_neg (by omega)]
    rfl
  · simp only [h0, if_false]
    by_cases hl : 1 ≤ scanLimit ∧ scanLimit ≤ (rows.length : Int)
    · rw [if_pos hl, if_neg (by omega)]
    · rw [if_neg hl, if_pos (by omega)]

/-! ## Records as maps -/

theorem Record.get_set (r : Record) (k v k' : String) :
    (r.set k v).get k' = if k = k' then some v else r.get k' := by
  induction r with
  | nil => simp [Record.set, Record.get]
  | cons p rest ih =>
    obtain ⟨a, b⟩ := p
    by_cases hak : a = k
    · subst hak
      by_cases hk : a = k' <;> simp [Record.set, Record.get, hk]
    · by_cases hk : k = k'
      · subst hk
        simp [Record.set, hak, Record.get, ih]
      · simp only [Record.set, hak, if_false, Record.get, ih, hk]

theorem Record.set_ne_nil (r : Record) (k v : String) : r.set k v ≠ [] := by
  cases r with
  | nil => simp [Record.set]
  | cons p rest =>
    obtain ⟨a, b⟩ := p
    by_cases hak : a = k <;> simp [Record.set, hak]

theorem Record.ne_nil_iff (r : Record) : r ≠ [] ↔ ∃ k v, r.get k = some v := by
  cases r with
  | nil => simp [Record.get]
  | cons p rest =>
    obtain ⟨a, b⟩ := p
    simp only [ne_eq, reduceCtorEq, not_false_eq_true, true_iff]
    exact ⟨a, b, by simp [Record.get]⟩

theorem applyWrites_append (r : Record) (ws ws' : List (String × String)) :
    applyWrites r (ws ++ ws') = applyWrites (applyWrites r ws) ws' := by
  simp [applyWrites, List.foldl_append]

/-- Writes to other keys leave the value under `k` as it was. -/
theorem applyWrites_get_of_not_mem (ws : List (String × String)) (r : Record) (k : String)
    (h : ∀ kv ∈ ws, kv.1 ≠ k) : (applyWrites r ws).get k = r.get k := by
  induction ws generalizing r with
  | nil => rfl
  | cons w ws ih =>
    have hw : w.1 ≠ k := h w (List.mem_cons_self _ _)
    have ht : ∀ kv ∈ ws, kv.1 ≠ k := fun kv hkv => h kv (List.mem_cons_of_mem _ hkv)
    show (applyWrites (r.set w.1 w.2) ws).get k = r.get k
    rw [ih _ ht, Record.get_set, if_neg hw]

/-- The last write to a key decides its value. -/
theorem applyWrites_get_last (pre post : List (String × String)) (r : Record) (k v : String)
    (h : ∀ kv ∈ post, kv.1 ≠ k) : (applyWrites r (pre ++ (k, v) :: post)).get k = some v := by
  rw [applyWrites_append]
  show (applyWrites ((applyWrites r pre).set k v) post).get k = some v
  rw [applyWrites_get_of_not_mem post _ k h, Record.get_set, if_pos rfl]

/-- With pairwise distinct keys a record built from writes holds exactly the
written pairs. -/
theorem applyWrites_get_iff (ws : List (String × String)) (k v : String)
    (hnd : (ws.map Prod.fst).Nodup) :
    (applyWrites [] ws).get k = some v ↔ (k, v) ∈ ws := by
  have back : ∀ v', (k, v') ∈ ws → (applyWrites [] ws).get k = some v' := by
    intro v' hmem
    obtain ⟨pre, post, rfl⟩ := List.append_of_mem hmem
    apply applyWrites_get_last
    intro kv hkv hk
    rw [List.map_append, List.map_cons, List.nodup_append] at hnd
    have h2 := (List.nodup_cons.mp hnd.2.1).1
    exact h2 (List.mem_map.mpr ⟨kv, hkv, hk⟩)
  constructor
  · intro hget
    by_cases hex : ∃ kv ∈ ws, kv.1 = k
    · obtain ⟨⟨k', v'⟩, hmem, hk⟩ := hex
      simp only at hk
      subst hk
      have := back v' hmem
      rw [hget] at this
      cases this
      exact hmem
    · have hno : ∀ kv ∈ ws, kv.1 ≠ k := fun kv hkv hk => hex ⟨kv, hkv, hk⟩
      rw [applyWrites_get_of_not_mem ws [] k hno] at hget
      simp [Record.get] at hget
  · exact back v

/-- The keys of a record built from writes are the written keys, whatever the
sequence of the writes. -/
theorem applyWrites_key_iff (ws : List (String × String)) (k : String) :
    (∃ v, (applyWrites [] ws).get k = some v) ↔ ∃ kv ∈ ws, kv.1 = k := by
  induction ws using List.reverseRecOn with
  | nil => simp [applyWrites, Record.get]
  | append_singleton ws w ih =>
    rw [applyWrites_append]
    show (∃ v, ((applyWrites [] ws).set w.1 w.2).get k = some v) ↔ _
    by_cases hw : w.1 = k
    · simp only [Record.get_set, hw, if_true]
      exact ⟨fun _ => ⟨w, by simp, hw⟩, fun _ => ⟨w.2, rfl⟩⟩
    · simp only [Record.get_set, hw, if_false, ih, List.mem_append, List.mem_singleton]
      constructor
      · rintro ⟨kv, hkv, hk⟩
        exact ⟨kv, Or.inl hkv, hk⟩
      · rintro ⟨kv, hkv | hkv, hk⟩
        · exact ⟨kv, hkv, hk⟩
        · exact absurd (hkv ▸ hk) hw

/-! ## The inner loop as a sequence of writes -/

theorem projectStep_eq (opts : ParseOptions) (row : List String) (record : Record)
    (e : Nat × String) :
    projectStep opts row record e =
      match contribution opts row e with
      | some kv => record.set kv.1 kv.2
      | none => record := by
  have hstep : projectStep opts row record e =
      if e.1 < row.length then
        if opts.SkipEmpty = true ∧ cellValue opts row e.1 = "" then record
        else
          match opts.HeaderMap.lookup e.2 with
          | some newName => record.set newName (cellValue opts row e.1)
          | none => record.set e.2 (cellValue opts row e.1)
      else record := rfl
  rw [hstep]
  unfold contribution
  generalize cellValue opts row e.1 = val
  by_cases hlen : e.1 < row.length
  · by_cases hskip : opts.SkipEmpty = true ∧ val = ""
    · simp [hlen, hskip]
    · cases hl : List.lookup e.2 opts.HeaderMap <;> simp [hlen, hskip]
  · simp [hlen]

theorem foldl_projectStep (opts : ParseOptions) (row : List String)
    (visit : List (Nat × String)) (record : Record) :
    visit.foldl (projectStep opts row) record =
      applyWrites record (visit.filterMap (contribution opts row)) := by
  induction visit generalizing record with
  | nil => rfl
  | cons e es ih =>
    rw [List.foldl_cons, ih, projectStep_eq, List.filterMap_cons]
    cases contribution opts row e <;> rfl

theorem buildRecord_eq (opts : ParseOptions) (visit : List (Nat × String))
    (row : List String) :
    buildRecord opts visit row = applyWrites [] (visit.filterMap (contribution opts row)) :=
  foldl_projectStep opts row visit []

/-! ## The retained columns -/

theorem mem_headerIndexesFrom (orbit : Char → Char → Bool) (opts : ParseOptions)
    (start : Nat) (l : List String) (i : Nat) (h : String) :
    (i, h) ∈ headerIndexesFrom orbit opts start l ↔
      ∃ j, j < l.length ∧ i = start + j ∧
        h = (if opts.TrimSpace then TrimSpace (l.getD j "") else l.getD j "") ∧
        (opts.HeaderFilter = [] ∨ containsIgnoreCase orbit opts.HeaderFilter h = true) := by
  induction l generalizing start with
  | nil => simp [headerIndexesFrom]
  | cons x xs ih =>
    have hrec : ((i, h) ∈ headerIndexesFrom orbit opts (start + 1) xs) ↔
        ∃ j, 0 < j ∧ j < (x :: xs).length ∧ i = start + j ∧
          h = (if opts.TrimSpace then TrimSpace ((x :: xs).getD j "") else (x :: xs).getD j "") ∧
          (opts.HeaderFilter = [] ∨ containsIgnoreCase orbit opts.HeaderFilter h = true) := by
      rw [ih]
      constructor
      · rintro ⟨j, hj, hi, hh, hk⟩
        exact ⟨j + 1, by omega, by simp; omega, by omega, by simpa using hh, hk⟩
      · rintro ⟨j, hpos, hj, hi, hh, hk⟩
        obtain ⟨j', rfl⟩ : ∃ j', j = j' + 1 := ⟨j - 1, by omega⟩
        exact ⟨j', by simp at hj; omega, by omega, by simpa using hh, hk⟩
    have hkeep : (opts.HeaderFilter.length = 0 ∨
        containsIgnoreCase orbit opts.HeaderFilter
          (if opts.TrimSpace then TrimSpace x else x) = true) ↔
        (opts.HeaderFilter = [] ∨
        containsIgnoreCase orbit opts.HeaderFilter
          (if opts.TrimSpace then TrimSpace x else x) = true) := by
      rw [List.length_eq_zero]
    by_cases hx : opts.HeaderFilter.length = 0 ∨
        containsIgnoreCase orbit opts.HeaderFilter
          (if opts.TrimSpace then TrimSpace x else x) = true
    · simp only [headerIndexesFrom, hx, if_true, List.mem_cons, hrec]
      constructor
      · rintro (heq | ⟨j, _, hj, hi, hh, hk⟩)
        · have h1 : i = start := (Prod.mk.inj heq).1
          have h2 : h = _ := (Prod.mk.inj heq).2
          exact ⟨0, by simp, by omega, by simpa using h2, by rw [h2]; exact hkeep.mp hx⟩
        · exact ⟨j, hj, hi, hh, hk⟩
      · rintro ⟨j, hj, hi, hh, hk⟩
        rcases Nat.eq_zero_or_pos j with h0 | hpos
        · subst h0
          left
          have hi' : i = start := by omega
          rw [hi', hh]
          simp
        · exact Or.inr ⟨j, hpos, hj, hi, hh, hk⟩
    · simp only [headerIndexesFrom, hx, if_false, hrec]
      constructor
      · rintro ⟨j, _, hj, hi, hh, hk⟩
        exact ⟨j, hj, hi, hh, hk⟩
      · rintro ⟨j, hj, hi, hh, hk⟩
        rcases Nat.eq_zero_or_pos j with h0 | hpos
        · subst h0
          exfalso
          apply hx
          apply hkeep.mpr
          have hh' : h = (if opts.TrimSpace then TrimSpace x else x) := by simpa using hh
          rw [← hh']
          exact hk
        · exact ⟨j, hpos, hj, hi, hh, hk⟩

/-- The entries of `headerIndexes` are the retained columns with their header
names. -/
theorem mem_headerIndexes (orbit : Char → Char → Bool) (opts : ParseOptions)
    (headers : List String) (e : Nat × String) :
    e ∈ headerIndexes orbit opts headers ↔
      Retained orbit opts headers e.1 ∧ e.2 = headerName opts headers e.1 := by
  obtain ⟨i, h⟩ := e
  unfold headerIndexes Retained headerName
  rw [mem_headerIndexesFrom]
  constructor
  · rintro ⟨j, hj, hi, hh, hk⟩
    have hij : i = j := by omega
    subst hij
    exact ⟨⟨hj, by rw [← hh]; exact hk⟩, hh⟩
  · rintro ⟨⟨hj, hk⟩, hh⟩
    exact ⟨i, hj, by omega, hh, by simp only at hh; rw [hh]; exact hk⟩

theorem headerIndexesFrom_sorted (orbit : Char → Char → Bool) (opts : ParseOptions)
    (start : Nat) (l : List String) :
    (headerIndexesFrom orbit opts start l).Pairwise (fun a b => a.1 < b.1) := by
  induction l generalizing start with
  | nil => simp [headerIndexesFrom]
  | cons x xs ih =>
    have hge : ∀ e ∈ headerIndexesFrom orbit opts (start + 1) xs, start < e.1 := by
      rintro ⟨i, h⟩ he
      obtain ⟨j, _, hi, _⟩ := (mem_headerIndexesFrom orbit opts (start + 1) xs i h).mp he
      simp only
      omega
    by_cases hx : opts.HeaderFilter.length = 0 ∨
        containsIgnoreCase orbit opts.HeaderFilter
          (if opts.TrimSpace then TrimSpace x else x) = true
    · simp only [headerIndexesFrom, hx, if_true, List.pairwise_cons]
      exact ⟨hge, ih (start + 1)⟩
    · simp only [headerIndexesFrom, hx, if_false]
      exact ih (start + 1)

/-- What a retained column writes for a row. -/
theorem contribution_retained (opts : ParseOptions) (headers row : List String) (i : Nat) :
    contribution opts row (i, headerName opts headers i) =
      if Contributes opts row i then some (outKey opts headers i, cellValue opts row i)
      else none := by
  unfold contribution Contributes outKey
  by_cases h : i < row.length ∧ ¬ (opts.SkipEmpty = true ∧ cellValue opts row i = "")
  · rw [if_pos h]
  · rw [if_neg h]

/-- With pairwise distinct output keys no key is written twice for a row. -/
theorem writes_nodup (orbit : Char → Char → Bool) (opts : ParseOptions)
    (headers row : List String) (visit : List (Nat × String))
    (hvisit : visit.Perm (headerIndexes orbit opts headers))
    (hdist : DistinctKeys orbit opts headers) :
    ((visit.filterMap (contribution opts row)).map Prod.fst).Nodup := by
  rw [((hvisit.filterMap (contribution opts row)).map Prod.fst).nodup_iff]
  unfold List.Nodup
  rw [List.pairwise_map]
  have hsorted := headerIndexesFrom_sorted orbit opts 0 headers
  refine List.Pairwise.filterMap (contribution opts row) ?_
    (hsorted.imp_of_mem (S := fun a b => a ∈ headerIndexes orbit opts headers ∧
      b ∈ headerIndexes orbit opts headers ∧ a.1 < b.1) (fun ha hb hab => ⟨ha, hb, hab⟩))
  rintro ⟨i, hi⟩ ⟨j, hj⟩ ⟨ha, hb, hlt⟩ kv hkv kv' hkv'
  obtain ⟨hri, hni⟩ := (mem_headerIndexes orbit opts headers _).mp ha
  obtain ⟨hrj, hnj⟩ := (mem_headerIndexes orbit opts headers _).mp hb
  simp only at hni hnj hlt
  subst hni
  subst hnj
  rw [Option.mem_def, contribution_retained] at hkv hkv'
  split at hkv
  · split at hkv'
    · cases hkv
      cases hkv'
      exact hdist i j hri hrj (by omega)
    · cases hkv'
  · cases hkv

/-- The pairs written for a row are the contributions of the retained
columns, whatever the order of the visit. -/
theorem mem_writes (orbit : Char → Char → Bool) (opts : ParseOptions)
    (headers row : List String) (visit : List (Nat × String))
    (hvisit : visit.Perm (headerIndexes orbit opts headers)) (k v : String) :
    (k, v) ∈ visit.filterMap (contribution opts row) ↔
      ∃ i, Retained orbit opts headers i ∧ Contributes opts row i ∧
        outKey opts headers i = k ∧ cellValue opts row i = v := by
  rw [List.mem_filterMap]
  constructor
  · rintro ⟨⟨i, h⟩, he, hc⟩
    obtain ⟨hr, hn⟩ := (mem_headerIndexes orbit opts headers _).mp (hvisit.mem_iff.mp he)
    simp only at hn hr
    subst hn
    rw [contribution_retained] at hc
    split at hc
    · rename_i hcon
      cases hc
      exact ⟨i, hr, hcon, rfl, rfl⟩
    · cases hc
  · rintro ⟨i, hr, hcon, hk, hv⟩
    refine ⟨(i, headerName opts headers i), hvisit.mem_iff.mpr
      ((mem_headerIndexes orbit opts headers _).mpr ⟨hr, rfl⟩), ?_⟩
    rw [contribution_retained, if_pos hcon, hk, hv]

/-- With pairwise distinct output keys the record of a row holds exactly the
contributions of the retained columns. -/
theorem buildRecord_get_iff (orbit : Char → Char → Bool) (opts : ParseOptions)
    (headers row : List String) (visit : List (Nat × String))
    (hvisit : visit.Perm (headerIndexes orbit opts headers))
    (hdist : DistinctKeys orbit opts headers) (k v : String) :
    (buildRecord opts visit row).get k = some v ↔
      ∃ i, Retained orbit opts headers i ∧ i < row.length ∧ outKey opts headers i = k ∧
        v = cellValue opts row i ∧ ¬ (opts.SkipEmpty = true ∧ v = "") := by
  rw [buildRecord_eq, applyWrites_get_iff _ k v (writes_nodup orbit opts headers row visit
    hvisit hdist), mem_writes orbit opts headers row visit hvisit]
  constructor
  · rintro ⟨i, hr, ⟨hlen, hskip⟩, hk, hv⟩
    exact ⟨i, hr, hlen, hk, hv.symm, by rw [← hv]; exact hskip⟩
  · rintro ⟨i, hr, hlen, hk, hv, hskip⟩
    exact ⟨i, hr, ⟨hlen, by rw [← hv]; exact hskip⟩, hk, hv.symm⟩

/-- Records built from permuted writes with pairwise distinct keys hold the
same pairs. -/
theorem applyWrites_perm (ws ws' : List (String × String)) (hp : ws.Perm ws')
    (hnd : (ws'.map Prod.fst).Nodup) : Record.Same (applyWrites [] ws) (applyWrites [] ws') := by
  intro k
  apply Option.ext
  intro v
  rw [Option.mem_def, Option.mem_def, applyWrites_get_iff ws k v ((hp.map Prod.fst).nodup_iff.mpr hnd),
    applyWrites_get_iff ws' k v hnd, hp.mem_iff]

/-- A value found in a record built from writes was written under its key. -/
theorem applyWrites_get_mem (ws : List (String × String)) (k v : String)
    (h : (applyWrites [] ws).get k = some v) : (k, v) ∈ ws := by
  induction ws using List.reverseRecOn with
  | nil => simp [applyWrites, Record.get] at h
  | append_singleton ws w ih =>
    rw [applyWrites_append] at h
    change ((applyWrites [] ws).set w.1 w.2).get k = some v at h
    rw [Record.get_set] at h
    by_cases hw : w.1 = k
    · rw [if_pos hw] at h
      cases h
      subst hw
      simp
    · rw [if_neg hw] at h
      exact List.mem_append_left _ (ih h)

/-! ## The row loop and the sheet result -/

theorem parseRows_eq (order : MapOrder) (opts : ParseOptions) (entries : List (Nat × String))
    (r : Nat) (dataRows : List (List String)) (localData : List Record) :
    parseRows order opts entries r dataRows localData =
      localData ++ ((dataRows.enumFrom r).map
        (fun p => buildRecord opts (order p.1 entries) p.2)).filter
        (fun record => decide (0 < record.length)) := by
  induction dataRows generalizing r localData with
  | nil => simp [parseRows]
  | cons row rest ih =>
    by_cases hlen : (buildRecord opts (order r entries) row).length > 0
    · simp only [parseRows, hlen, if_true, ih, List.enumFrom_cons, List.map_cons]
      rw [List.filter_cons_of_pos (by simpa using hlen)]
      simp
    · simp only [parseRows, hlen, if_false, ih, List.enumFrom_cons, List.map_cons]
      rw [List.filter_cons_of_neg (by simpa using hlen)]

theorem scanFrom_bound (rows : List (List String)) (n i : Nat) :
    scanFrom rows n i = 0 ∨ (i ≤ scanFrom rows n i ∧ scanFrom rows n i < i + n) := by
  induction n generalizing i with
  | zero => exact Or.inl rfl
  | succ n ih =>
    rw [scanFrom_step]
    by_cases hq : Qualifies rows i
    · rw [if_pos hq]
      exact Or.inr ⟨le_refl i, by omega⟩
    · rw [if_neg hq]
      rcases ih (i + 1) with h | h
      · exact Or.inl h
      · exact Or.inr ⟨by omega, by omega⟩

theorem effectiveLimit_le (rows : List (List String)) (scanLimit : Int) :
    effectiveLimit rows scanLimit ≤ rows.length := by
  unfold effectiveLimit
  split <;> omega

/-- The header row index is a valid row index of a non-empty sheet. -/
theorem headerRowIdx_lt (opts : ParseOptions) (rows : List (List String)) (hne : rows ≠ []) :
    headerRowIdx opts rows < rows.length := by
  have hpos : 0 < rows.length := List.length_pos.mpr hne
  unfold headerRowIdx
  split
  · rw [detectHeaderRow_eq]
    have hle := effectiveLimit_le rows (if opts.HeaderRowScanLimit ≤ 0 then 10 else opts.HeaderRowScanLimit)
    rcases scanFrom_bound rows (effectiveLimit rows
      (if opts.HeaderRowScanLimit ≤ 0 then 10 else opts.HeaderRowScanLimit)) 0 with h | h
    · omega
    · omega
  · exact hpos

/-- A non-empty sheet always yields a stored result: the header row as read,
the records collected by the row loop and their number. -/
theorem processSheet_stored (orbit : Char → Char → Bool) (order : MapOrder)
    (opts : ParseOptions) (rows : List (List String)) (hne : rows ≠ []) :
    ∃ headers, rows.get? (headerRowIdx opts rows) = some headers ∧
      processSheet orbit order opts rows = SheetOutcome.stored
        { Headers := headers,
          Records := projectRows order opts (headerIndexes orbit opts headers)
            (rows.drop (headerRowIdx opts rows + 1)),
          RecordCount := (projectRows order opts (headerIndexes orbit opts headers)
            (rows.drop (headerRowIdx opts rows + 1))).length } := by
  have hlt := headerRowIdx_lt opts rows hne
  have hlen : rows.length ≠ 0 := by omega
  obtain ⟨headers, hh⟩ : ∃ headers, rows.get? (headerRowIdx opts rows) = some headers :=
    ⟨rows.get ⟨_, hlt⟩, List.get?_eq_get hlt⟩
  refine ⟨headers, hh, ?_⟩
  unfold processSheet projectRows
  rw [if_neg hlen, hh]
  simp only [parseRows_eq, List.nil_append, List.enum]

/-! ## Independence from the visiting order -/

theorem Record.Same.symm {a b : Record} (h : Record.Same a b) : Record.Same b a :=
  fun k => (h k).symm

theorem Record.Same.trans {a b c : Record} (h : Record.Same a b) (h' : Record.Same b c) :
    Record.Same a c :=
  fun k => (h k).trans (h' k)

theorem Record.Same.length_pos_iff {a b : Record} (h : Record.Same a b) :
    0 < a.length ↔ 0 < b.length := by
  rw [List.length_pos, List.length_pos, Record.ne_nil_iff, Record.ne_nil_iff]
  constructor
  · rintro ⟨k, v, hk⟩
    exact ⟨k, v, (h k) ▸ hk⟩
  · rintro ⟨k, v, hk⟩
    exact ⟨k, v, (h k).symm ▸ hk⟩

/-- A visit in another order builds the same record when no key is written
twice. -/
theorem buildRecord_perm (opts : ParseOptions) (row : List String)
    (visit entries : List (Nat × String)) (hvisit : visit.Perm entries)
    (hnd : ((entries.filterMap (contribution opts row)).map Prod.fst).Nodup) :
    Record.Same (buildRecord opts visit row) (buildRecord opts entries row) := by
  rw [buildRecord_eq, buildRecord_eq]
  exact applyWrites_perm _ _ (hvisit.filterMap _) hnd

theorem forall₂_filter_same {l₁ l₂ : List Record} (h : List.Forall₂ Record.Same l₁ l₂) :
    List.Forall₂ Record.Same (l₁.filter (fun r => decide (0 < r.length)))
      (l₂.filter (fun r => decide (0 < r.length))) := by
  induction h with
  | nil => exact List.Forall₂.nil
  | @cons a b l₁ l₂ hab _ ih =>
    by_cases ha : 0 < a.length
    · have hb : 0 < b.length := hab.length_pos_iff.mp ha
      rw [List.filter_cons_of_pos (by simpa using ha), List.filter_cons_of_pos (by simpa using hb)]
      exact List.Forall₂.cons hab ih
    · have hb : ¬ 0 < b.length := fun hb => ha (hab.length_pos_iff.mpr hb)
      rw [List.filter_cons_of_neg (by simpa using ha), List.filter_cons_of_neg (by simpa using hb)]
      exact ih

/-- With pairwise distinct output keys two valid visiting orders give the same
records for the data rows. -/
theorem projectRows_same (orbit : Char → Char → Bool) (order₁ order₂ : MapOrder)
    (opts : ParseOptions) (headers : List String) (dataRows : List (List String))
    (h₁ : order₁.Valid) (h₂ : order₂.Valid) (hdist : DistinctKeys orbit opts headers) :
    List.Forall₂ Record.Same
      (projectRows order₁ opts (headerIndexes orbit opts headers) dataRows)
      (projectRows order₂ opts (headerIndexes orbit opts headers) dataRows) := by
  unfold projectRows
  apply forall₂_filter_same
  rw [List.forall₂_map_left_iff, List.forall₂_map_right_iff, List.forall₂_same]
  rintro ⟨r, row⟩ _
  have hnd := writes_nodup orbit opts headers row _ (List.Perm.refl _) hdist
  exact (buildRecord_perm opts row _ _ (h₁ r _) hnd).trans
    (buildRecord_perm opts row _ _ (h₂ r _) hnd).symm

/-! ## Trimming -/

theorem trimRunes_idem (cs : List Char) : trimRunes (trimRunes cs) = trimRunes cs := by
  have hdef : ∀ l, trimRunes l = List.rdropWhile isSpace (List.dropWhile isSpace l) :=
    fun _ => rfl
  rw [hdef (trimRunes cs)]
  have hself : List.dropWhile isSpace (trimRunes cs) = trimRunes cs := by
    rw [List.dropWhile_eq_self_iff]
    intro hl
    have hne : trimRunes cs ≠ [] := List.length_pos.mp hl
    have hpre : trimRunes cs <+: List.dropWhile isSpace cs := by
      rw [hdef]
      exact List.rdropWhile_prefix _ _
    have hne' : List.dropWhile isSpace cs ≠ [] := by
      intro h0
      rw [h0] at hpre
      exact hne (List.prefix_nil.mp hpre)
    have hhead := hpre.head hne
    have hnot := List.head_dropWhile_not isSpace cs hne'
    rw [List.get_mk_zero, hhead, hnot]
    simp
  rw [hself, hdef, List.rdropWhile_idempotent]

theorem TrimSpace_idem (s : String) : TrimSpace (TrimSpace s) = TrimSpace s := by
  unfold TrimSpace
  rw [trimRunes_idem]

/-- Under `SkipEmpty` every value written for a row is non-empty, and with
`TrimSpace` also set it stays non-empty when trimmed. -/
theorem buildRecord_value (opts : ParseOptions) (visit : List (Nat × String))
    (row : List String) (hskip : opts.SkipEmpty = true) (k v : String)
    (hget : (buildRecord opts visit row).get k = some v) :
    v ≠ "" ∧ (opts.TrimSpace = true → TrimSpace v ≠ "") := by
  rw [buildRecord_eq] at hget
  obtain ⟨e, _, hc⟩ := List.mem_filterMap.mp (applyWrites_get_mem _ k v hget)
  unfold contribution at hc
  split at hc
  · rename_i hcon
    cases hc
    have hv : cellValue opts row e.1 ≠ "" := fun h0 => hcon.2 ⟨hskip, h0⟩
    refine ⟨hv, fun ht => ?_⟩
    have hcell : cellValue opts row e.1 = TrimSpace (row.getD e.1 "") := by
      unfold cellValue
      rw [if_pos ht]
    rw [hcell, TrimSpace_idem, ← hcell]
    exact hv
  · cases hc

/-! ## Concrete header rows -/

theorem distinctKeys_filterRename (orbit : Char → Char → Bool) :
    DistinctKeys orbit filterRenameOpts ["Name", "Amount", "Note"] := by
  intro i j hi hj hne
  have hi3 : i < 3 := hi.1
  have hj3 : j < 3 := hj.1
  have hno : ¬ Retained orbit filterRenameOpts ["Name", "Amount", "Note"] 2 := by
    intro h
    rcases h.2 with h | h
    · cases h
    · revert h
      rw [show containsIgnoreCase orbit filterRenameOpts.HeaderFilter
        (headerName filterRenameOpts ["Name", "Amount", "Note"] 2) = false from rfl]
      simp
  interval_cases i <;> interval_cases j <;>
    first
    | exact absurd rfl hne
    | exact absurd hi hno
    | exact absurd hj hno
    | decide

theorem distinctKeys_pair : DistinctKeys asciiOrbit zeroOpts ["A", "B"] := by
  intro i j hi hj hne
  have hi3 : i < 2 := hi.1
  have hj3 : j < 2 := hj.1
  interval_cases i <;> interval_cases j <;>
    first
    | exact absurd rfl hne
    | decide

/-! ## Header detection: the contract -/

/-- C1: for every list of rows (non-empty ones in particular) and every
integer scan limit, `detectHeaderRow` returns the smallest index below the effective limit whose
row qualifies (at least 3 non-empty cells, and at least 4 of the up to 5 rows
that follow have at least 3 non-empty cells); when no index below the
effective limit qualifies it returns 0. -/
theorem detectHeaderRow_least (rows : List (List String)) (scanLimit : Int) :
    ((∃ i, i < effectiveLimit rows scanLimit ∧ Qualifies rows i) →
      (detectHeaderRow rows scanLimit < effectiveLimit rows scanLimit ∧
        Qualifies rows (detectHeaderRow rows scanLimit) ∧
        ∀ k, k < effectiveLimit rows scanLimit → Qualifies rows k →
          detectHeaderRow rows scanLimit ≤ k)) ∧
    ((¬ ∃ i, i < effectiveLimit rows scanLimit ∧ Qualifies rows i) →
      detectHeaderRow rows scanLimit = 0) := by
  rw [detectHeaderRow_eq]
  constructor
  · intro hex
    classical
    have hk := Nat.find_spec hex
    have hmin : ∀ j, j < Nat.find hex → ¬ Qualifies rows j := fun j hj hq =>
      Nat.find_min hex hj ⟨lt_trans hj hk.1, hq⟩
    have heq : scanFrom rows (effectiveLimit rows scanLimit) 0 = Nat.find hex :=
      scanFrom_found rows _ 0 _ ⟨Nat.zero_le _, by omega⟩ hk.2 (fun j _ hj => hmin j hj)
    rw [heq]
    refine ⟨hk.1, hk.2, fun k hkl hkq => ?_⟩
    by_contra hlt
    exact hmin k (by omega) hkq
  · intro hno
    exact scanFrom_none rows _ 0 (fun j _ hj hq => hno ⟨j, by omega, hq⟩)

/-- C4: on the eight-row scenario sheet with scan limit 10 the detected
header row index is 2. -/
theorem detectHeaderRow_scenario : detectHeaderRow scenarioRows 10 = 2 := by
  decide

/-! ## Row projection: the contract -/

/-- C2: when the retained headers have pairwise distinct output keys, the
record built for a data row (in whatever order the retained columns are
visited) holds key `k` with value `v` exactly when some retained column
`i < len(row)` has output key `k`, value `v = row[i]` (trimmed when `TrimSpace`
is set) and is not skipped as empty; and a retained column at or beyond the
end of the row contributes no key at all. -/
theorem record_fields (orbit : Char → Char → Bool) (opts : ParseOptions)
    (headers row : List String) (visit : List (Nat × String))
    (hvisit : visit.Perm (headerIndexes orbit opts headers))
    (hdist : DistinctKeys orbit opts headers) :
    (∀ k v, (buildRecord opts visit row).get k = some v ↔
      ∃ i, Retained orbit opts headers i ∧ i < row.length ∧ outKey opts headers i = k ∧
        v = cellValue opts row i ∧ ¬ (opts.SkipEmpty = true ∧ v = "")) ∧
    (∀ i, Retained orbit opts headers i → row.length ≤ i →
      (buildRecord opts visit row).get (outKey opts headers i) = none) := by
  have main := buildRecord_get_iff orbit opts headers row visit hvisit hdist
  refine ⟨main, fun i hr hlen => ?_⟩
  cases hget : (buildRecord opts visit row).get (outKey opts headers i) with
  | none => rfl
  | some v =>
    obtain ⟨j, hrj, hjlen, hk, _⟩ := (main _ v).mp hget
    have hij : j ≠ i := by omega
    exact absurd hk (hdist j i hrj hr hij)

/-- Witness for C2: the filter-and-rename scenario visited from right to left. -/
theorem record_fields_witness :
    [(1, "Amount"), (0, "Name")].Perm
        (headerIndexes asciiOrbit filterRenameOpts ["Name", "Amount", "Note"]) ∧
    DistinctKeys asciiOrbit filterRenameOpts ["Name", "Amount", "Note"] ∧
    ((∀ k v, (buildRecord filterRenameOpts [(1, "Amount"), (0, "Name")]
          ["Bob", "5", "skip-me"]).get k = some v ↔
      ∃ i, Retained asciiOrbit filterRenameOpts ["Name", "Amount", "Note"] i ∧
        i < ["Bob", "5", "skip-me"].length ∧
        outKey filterRenameOpts ["Name", "Amount", "Note"] i = k ∧
        v = cellValue filterRenameOpts ["Bob", "5", "skip-me"] i ∧
        ¬ (filterRenameOpts.SkipEmpty = true ∧ v = "")) ∧
    (∀ i, Retained asciiOrbit filterRenameOpts ["Name", "Amount", "Note"] i →
      ["Bob", "5", "skip-me"].length ≤ i →
      (buildRecord filterRenameOpts [(1, "Amount"), (0, "Name")]
        ["Bob", "5", "skip-me"]).get
          (outKey filterRenameOpts ["Name", "Amount", "Note"] i) = none)) :=
  ⟨by decide, distinctKeys_filterRename asciiOrbit,
    record_fields asciiOrbit filterRenameOpts ["Name", "Amount", "Note"]
      ["Bob", "5", "skip-me"] [(1, "Amount"), (0, "Name")] (by decide)
      (distinctKeys_filterRename asciiOrbit)⟩

/-- C5: with header row `["Name","Amount","Note"]`, filter `["name","amount"]`,
map `{"Amount":"amt"}`, `TrimSpace` and `SkipEmpty` off, the retained columns
are `Name` and `Amount` (the filter matches case-insensitively, `Note` is
dropped) and, in whatever order they are visited, the data row
`["Bob","5","skip-me"]` produces the record `{"Name":"Bob","amt":"5"}`. -/
theorem filter_rename_scenario (orbit : Char → Char → Bool) (visit : List (Nat × String))
    (hvisit : visit.Perm (headerIndexes orbit filterRenameOpts ["Name", "Amount", "Note"])) :
    headerIndexes orbit filterRenameOpts ["Name", "Amount", "Note"] =
      [(0, "Name"), (1, "Amount")] ∧
    Record.Same (buildRecord filterRenameOpts visit ["Bob", "5", "skip-me"])
      [("Name", "Bob"), ("amt", "5")] := by
  have hidx : headerIndexes orbit filterRenameOpts ["Name", "Amount", "Note"] =
      [(0, "Name"), (1, "Amount")] := rfl
  refine ⟨hidx, ?_⟩
  rw [hidx] at hvisit
  have hsame := buildRecord_perm filterRenameOpts ["Bob", "5", "skip-me"] visit _ hvisit
    (by decide)
  have hlit : buildRecord filterRenameOpts [(0, "Name"), (1, "Amount")]
      ["Bob", "5", "skip-me"] = [("Name", "Bob"), ("amt", "5")] := by decide
  rw [hlit] at hsame
  exact hsame

/-- Witness for C5: the columns visited from right to left. -/
theorem filter_rename_scenario_witness :
    [(1, "Amount"), (0, "Name")].Perm
        (headerIndexes asciiOrbit filterRenameOpts ["Name", "Amount", "Note"]) ∧
    (headerIndexes asciiOrbit filterRenameOpts ["Name", "Amount", "Note"] =
      [(0, "Name"), (1, "Amount")] ∧
    Record.Same (buildRecord filterRenameOpts [(1, "Amount"), (0, "Name")]
      ["Bob", "5", "skip-me"]) [("Name", "Bob"), ("amt", "5")]) :=
  ⟨by decide, filter_rename_scenario asciiOrbit [(1, "Amount"), (0, "Name")] (by decide)⟩

/-- C6: with `TrimSpace` and `SkipEmpty` set, header row `["Name","Amount"]`
and no filter or rename, the data row `[" Bob ", "  "]` produces, in whatever
order the columns are visited, the record `{"Name":"Bob"}`: the value is
trimmed and the whitespace-only `Amount` field is omitted. -/
theorem trim_skip_scenario (orbit : Char → Char → Bool) (visit : List (Nat × String))
    (hvisit : visit.Perm (headerIndexes orbit trimSkipOpts ["Name", "Amount"])) :
    Record.Same (buildRecord trimSkipOpts visit [" Bob ", "  "]) [("Name", "Bob")] ∧
    (buildRecord trimSkipOpts visit [" Bob ", "  "]).get "Amount" = none := by
  have hidx : headerIndexes orbit trimSkipOpts ["Name", "Amount"] =
      [(0, "Name"), (1, "Amount")] := rfl
  rw [hidx] at hvisit
  have hsame := buildRecord_perm trimSkipOpts [" Bob ", "  "] visit _ hvisit (by decide)
  have hlit : buildRecord trimSkipOpts [(0, "Name"), (1, "Amount")] [" Bob ", "  "] =
      [("Name", "Bob")] := by decide
  rw [hlit] at hsame
  exact ⟨hsame, by rw [hsame "Amount"]; decide⟩

/-- Witness for C6: the columns visited from right to left. -/
theorem trim_skip_scenario_witness :
    [(1, "Amount"), (0, "Name")].Perm (headerIndexes asciiOrbit trimSkipOpts ["Name", "Amount"]) ∧
    (Record.Same (buildRecord trimSkipOpts [(1, "Amount"), (0, "Name")] [" Bob ", "  "])
      [("Name", "Bob")] ∧
    (buildRecord trimSkipOpts [(1, "Amount"), (0, "Name")] [" Bob ", "  "]).get "Amount" =
      none) :=
  ⟨by decide, trim_skip_scenario asciiOrbit [(1, "Amount"), (0, "Name")] (by decide)⟩

/-! ## Duplicate output keys -/

/-- C7 as stated fails: with header row `["A","A"]` and data row `["x","y"]`
both columns are retained, have the output key `A` and contribute, yet when
the map range yields column 1 before column 0 the record holds `x`, the value
of the earlier column. -/
theorem later_column_wins_counterexample :
    ¬ (∀ (orbit : Char → Char → Bool) (opts : ParseOptions) (headers row : List String)
        (visit : List (Nat × String)) (i j : Nat),
        visit.Perm (headerIndexes orbit opts headers) →
        Retained orbit opts headers i → Retained orbit opts headers j → i < j →
        outKey opts headers i = outKey opts headers j →
        Contributes opts row i → Contributes opts row j →
        (buildRecord opts visit row).get (outKey opts headers j) =
          some (cellValue opts row j)) := by
  intro h
  have h01 := h asciiOrbit zeroOpts ["A", "A"] ["x", "y"] [(1, "A"), (0, "A")] 0 1
    (by decide) (by decide) (by decide) (by decide) (by decide) (by decide) (by decide)
  revert h01
  decide

/-- C7 amended: the value under a shared output key is the value of the
contributing column with that key that is visited last.  When the visit is a
valid order of the retained columns, column `j` contributes for the row, and
no column visited after `j` contributes under the output key of `j`, the
record holds the value of column `j` under that key. -/
theorem last_visited_wins (orbit : Char → Char → Bool) (opts : ParseOptions)
    (headers row : List String) (pre post : List (Nat × String)) (j : Nat)
    (hvisit : (pre ++ (j, headerName opts headers j) :: post).Perm
      (headerIndexes orbit opts headers))
    (hj : Contributes opts row j)
    (hpost : ∀ e ∈ post, Contributes opts row e.1 →
      outKey opts headers e.1 ≠ outKey opts headers j) :
    (buildRecord opts (pre ++ (j, headerName opts headers j) :: post) row).get
      (outKey opts headers j) = some (cellValue opts row j) := by
  rw [buildRecord_eq, List.filterMap_append, List.filterMap_cons, contribution_retained,
    if_pos hj]
  apply applyWrites_get_last
  intro kv hkv
  obtain ⟨⟨i, h⟩, he, hc⟩ := List.mem_filterMap.mp hkv
  have hmem : (i, h) ∈ headerIndexes orbit opts headers :=
    hvisit.mem_iff.mp (List.mem_append_right _ (List.mem_cons_of_mem _ he))
  obtain ⟨_, hn⟩ := (mem_headerIndexes orbit opts headers _).mp hmem
  simp only at hn
  subst hn
  rw [contribution_retained] at hc
  split at hc
  · rename_i hcon
    cases hc
    exact hpost _ he hcon
  · cases hc

/-- Witness for C7 amended: header row `["A","A"]`, data row `["x","y"]`,
column 1 visited first and column 0 last; the record holds `x`. -/
theorem last_visited_wins_witness :
    ([(1, "A")] ++ (0, headerName zeroOpts ["A", "A"] 0) :: []).Perm
        (headerIndexes asciiOrbit zeroOpts ["A", "A"]) ∧
    Contributes zeroOpts ["x", "y"] 0 ∧
    (buildRecord zeroOpts ([(1, "A")] ++ (0, headerName zeroOpts ["A", "A"] 0) :: [])
      ["x", "y"]).get (outKey zeroOpts ["A", "A"] 0) = some (cellValue zeroOpts ["x", "y"] 0) :=
  ⟨by decide, by decide,
    last_visited_wins asciiOrbit zeroOpts ["A", "A"] ["x", "y"] [(1, "A")] [] 0
      (by decide) (by decide) (by simp)⟩

/-! ## The sheet result: the contract -/

/-- C3: for every non-empty sheet and every configuration the sheet is stored
and its `Records` are the projections of the rows strictly after the header
row index, in original row order, with the rows whose projection has no field
dropped; so there are at most as many records as rows after the header row. -/
theorem records_in_row_order (orbit : Char → Char → Bool) (order : MapOrder)
    (opts : ParseOptions) (rows : List (List String)) (hne : rows ≠ []) :
    ∃ headers res, rows.get? (headerRowIdx opts rows) = some headers ∧
      processSheet orbit order opts rows = SheetOutcome.stored res ∧
      res.Records = projectRows order opts (headerIndexes orbit opts headers)
        (rows.drop (headerRowIdx opts rows + 1)) ∧
      res.Records.length ≤ rows.length - (headerRowIdx opts rows + 1) := by
  obtain ⟨headers, hh, hp⟩ := processSheet_stored orbit order opts rows hne
  refine ⟨headers, _, hh, hp, rfl, ?_⟩
  unfold projectRows
  refine le_trans (List.length_filter_le _ _) ?_
  simp [List.enum]

/-- C10: for every non-empty sheet and every configuration the sheet is stored
and `Headers` is the row at the selected header row index, cell for cell,
whatever `TrimSpace`, `HeaderFilter` and `HeaderMap` are. -/
theorem headers_verbatim (orbit : Char → Char → Bool) (order : MapOrder)
    (opts : ParseOptions) (rows : List (List String)) (hne : rows ≠ []) :
    ∃ res, processSheet orbit order opts rows = SheetOutcome.stored res ∧
      rows.get? (headerRowIdx opts rows) = some res.Headers := by
  obtain ⟨headers, hh, hp⟩ := processSheet_stored orbit order opts rows hne
  exact ⟨_, hp, hh⟩

/-- Witness for C3: the filter-and-rename sheet. -/
theorem records_in_row_order_witness :
    filterRenameSheet ≠ [] ∧
    ∃ headers res, filterRenameSheet.get? (headerRowIdx filterRenameOpts filterRenameSheet) =
        some headers ∧
      processSheet asciiOrbit descending filterRenameOpts filterRenameSheet =
        SheetOutcome.stored res ∧
      res.Records = projectRows descending filterRenameOpts
        (headerIndexes asciiOrbit filterRenameOpts headers)
        (filterRenameSheet.drop (headerRowIdx filterRenameOpts filterRenameSheet + 1)) ∧
      res.Records.length ≤
        filterRenameSheet.length - (headerRowIdx filterRenameOpts filterRenameSheet + 1) :=
  ⟨by decide,
    records_in_row_order asciiOrbit descending filterRenameOpts filterRenameSheet (by decide)⟩

/-- Witness for C10: the skip-empty sheet, whose header row is stored as read. -/
theorem headers_verbatim_witness :
    trimSkipSheet ≠ [] ∧
    ∃ res, processSheet asciiOrbit ascending trimSkipOpts trimSkipSheet =
        SheetOutcome.stored res ∧
      trimSkipSheet.get? (headerRowIdx trimSkipOpts trimSkipSheet) = some res.Headers :=
  ⟨by decide, headers_verbatim asciiOrbit ascending trimSkipOpts trimSkipSheet (by decide)⟩

/-! ## Determinism -/

/-- C8 as stated fails: on the sheet `[["A","A"],["x","y"]]` the run that
visits the columns from left to right stores `{"A":"y"}` and the run that
visits them from right to left stores `{"A":"x"}`. -/
theorem deterministic_counterexample :
    ¬ (∀ (orbit : Char → Char → Bool) (order₁ order₂ : MapOrder) (opts : ParseOptions)
        (rows : List (List String)), order₁.Valid → order₂.Valid →
        SheetOutcome.Same (processSheet orbit order₁ opts rows)
          (processSheet orbit order₂ opts rows)) := by
  intro h
  have hs := h asciiOrbit ascending descending zeroOpts duplicateHeaderSheet
    (fun _ _ => List.Perm.refl _) (fun _ _ => List.reverse_perm _)
  have h₁ : processSheet asciiOrbit ascending zeroOpts duplicateHeaderSheet =
      SheetOutcome.stored ⟨["A", "A"], [[("A", "y")]], 1⟩ := by decide
  have h₂ : processSheet asciiOrbit descending zeroOpts duplicateHeaderSheet =
      SheetOutcome.stored ⟨["A", "A"], [[("A", "x")]], 1⟩ := by decide
  rw [h₁, h₂] at hs
  obtain ⟨_, hrec, _⟩ := hs
  cases hrec with
  | cons hab _ =>
    have := hab "A"
    revert this
    decide

/-- C8 amended: when the retained headers of the header row have pairwise
distinct output keys, two runs of the per-sheet extraction return identical
results (same `Headers`, same `Records` in the same order with the same
key/value pairs, same `RecordCount`) whatever valid order the retained header
indices are visited in on each run. -/
theorem deterministic_distinct_keys (orbit : Char → Char → Bool) (order₁ order₂ : MapOrder)
    (opts : ParseOptions) (rows : List (List String))
    (h₁ : order₁.Valid) (h₂ : order₂.Valid)
    (hdist : ∀ headers, rows.get? (headerRowIdx opts rows) = some headers →
      DistinctKeys orbit opts headers) :
    SheetOutcome.Same (processSheet orbit order₁ opts rows)
      (processSheet orbit order₂ opts rows) := by
  by_cases hne : rows = []
  · subst hne
    simp [processSheet, SheetOutcome.Same]
  · obtain ⟨headers, hh, hp₁⟩ := processSheet_stored orbit order₁ opts rows hne
    obtain ⟨headers', hh', hp₂⟩ := processSheet_stored orbit order₂ opts rows hne
    have heq : headers' = headers := Option.some.inj (hh'.symm.trans hh)
    subst heq
    rw [hp₁, hp₂]
    have hrec := projectRows_same orbit order₁ order₂ opts headers'
      (rows.drop (headerRowIdx opts rows + 1)) h₁ h₂ (hdist headers' hh)
    exact ⟨rfl, hrec, hrec.length_eq⟩

/-- Witness for C8 amended: the sheet `[["A","B"],["x","y"]]` read from left
to right and from right to left. -/
theorem deterministic_distinct_keys_witness :
    ascending.Valid ∧ descending.Valid ∧
    (∀ headers, twoColumnSheet.get? (headerRowIdx zeroOpts twoColumnSheet) = some headers →
      DistinctKeys asciiOrbit zeroOpts headers) ∧
    SheetOutcome.Same (processSheet asciiOrbit ascending zeroOpts twoColumnSheet)
      (processSheet asciiOrbit descending zeroOpts twoColumnSheet) :=
  have hv₁ : ascending.Valid := fun _ _ => List.Perm.refl _
  have hv₂ : descending.Valid := fun _ _ => List.reverse_perm _
  have hd : ∀ headers, twoColumnSheet.get? (headerRowIdx zeroOpts twoColumnSheet) =
      some headers → DistinctKeys asciiOrbit zeroOpts headers := by
    intro headers hh
    have : headers = ["A", "B"] := (Option.some.inj hh).symm
    subst this
    exact distinctKeys_pair
  ⟨hv₁, hv₂, hd,
    deterministic_distinct_keys asciiOrbit ascending descending zeroOpts twoColumnSheet
      hv₁ hv₂ hd⟩

/-! ## Skipping empty values -/

/-- C9 as stated fails: with `SkipEmpty` set and `TrimSpace` unset, the sheet
`[["A"],[" "]]` yields the record `{"A":" "}`, whose value trims to the empty
string. -/
theorem skip_empty_counterexample :
    ¬ (∀ (orbit : Char → Char → Bool) (order : MapOrder) (opts : ParseOptions)
        (rows : List (List String)) (res : SheetResult), order.Valid →
        opts.SkipEmpty = true →
        processSheet orbit order opts rows = SheetOutcome.stored res →
        ∀ record ∈ res.Records, ∀ k v, record.get k = some v → TrimSpace v ≠ "") := by
  intro h
  have hs := h asciiOrbit ascending skipOnlyOpts blankCellSheet ⟨["A"], [[("A", " ")]], 1⟩
    (fun _ _ => List.Perm.refl _) rfl (by decide) [("A", " ")] (by simp) "A" " " (by decide)
  revert hs
  decide

/-- C9 amended: with `SkipEmpty` set no record contains a field whose value
is the empty string, and when `TrimSpace` is set as well no record contains a
field whose whitespace-trimmed value is the empty string. -/
theorem skip_empty_values (orbit : Char → Char → Bool) (order : MapOrder)
    (opts : ParseOptions) (rows : List (List String)) (res : SheetResult)
    (hskip : opts.SkipEmpty = true)
    (hres : processSheet orbit order opts rows = SheetOutcome.stored res) :
    ∀ record ∈ res.Records, ∀ k v, record.get k = some v →
      v ≠ "" ∧ (opts.TrimSpace = true → TrimSpace v ≠ "") := by
  have hne : rows ≠ [] := by
    intro h0
    subst h0
    simp [processSheet] at hres
  obtain ⟨headers, _, hp⟩ := processSheet_stored orbit order opts rows hne
  rw [hp] at hres
  cases hres
  intro record hrec k v hget
  unfold projectRows at hrec
  obtain ⟨p, _, hp'⟩ := List.mem_map.mp (List.mem_of_mem_filter hrec)
  subst hp'
  exact buildRecord_value opts _ _ hskip k v hget

/-- Witness for C9 amended: the skip-empty sheet, which stores the single
record `{"Name":"Bob"}`. -/
theorem skip_empty_values_witness :
    trimSkipOpts.SkipEmpty = true ∧
    processSheet asciiOrbit ascending trimSkipOpts trimSkipSheet =
      SheetOutcome.stored ⟨["Name", "Amount"], [[("Name", "Bob")]], 1⟩ ∧
    ∀ record ∈ [[("Name", "Bob")]], ∀ k v, Record.get record k = some v →
      v ≠ "" ∧ (trimSkipOpts.TrimSpace = true → TrimSpace v ≠ "") :=
  ⟨rfl, by decide,
    skip_empty_values asciiOrbit ascending trimSkipOpts trimSkipSheet
      ⟨["Name", "Amount"], [[("Name", "Bob")]], 1⟩ rfl (by decide)⟩

/-! ## The header row index -/

theorem scanFrom_zero_or_qualifies (rows : List (List String)) (n i : Nat) :
    scanFrom rows n i = 0 ∨ Qualifies rows (scanFrom rows n i) := by
  induction n generalizing i with
  | zero => exact Or.inl rfl
  | succ n ih =>
    rw [scanFrom_step]
    by_cases hq : Qualifies rows i
    · rw [if_pos hq]
      exact Or.inr hq
    · rw [if_neg hq]
      exact ih (i + 1)

/-- A qualifying row is followed by at least 4 rows. -/
theorem Qualifies.rows_after {rows : List (List String)} {i : Nat} (h : Qualifies rows i) :
    i + 4 < rows.length := by
  have hcard := le_trans h.2 (Finset.card_filter_le _ _)
  rw [Nat.card_Ico] at hcard
  omega

theorem headerRowIdx_manual (opts : ParseOptions) (rows : List (List String))
    (hauto : opts.HeaderRowAutoDetect = false) : headerRowIdx opts rows = 0 := by
  unfold headerRowIdx
  rw [hauto]
  rfl

theorem effectiveLimit_ten (rows : List (List String)) : effectiveLimit rows 10 ≤ 10 := by
  unfold effectiveLimit
  split
  · simp
  · rename_i h
    omega

/-! ## Options that differ in fields the row loop does not read -/

theorem headerIndexesFrom_congr (orbit : Char → Char → Bool) (opts opts' : ParseOptions)
    (hT : opts.TrimSpace = opts'.TrimSpace) (hF : opts.HeaderFilter = opts'.HeaderFilter)
    (idx : Nat) (headers : List String) :
    headerIndexesFrom orbit opts idx headers = headerIndexesFrom orbit opts' idx headers := by
  induction headers generalizing idx with
  | nil => rfl
  | cons h rest ih => simp only [headerIndexesFrom, hT, hF, ih]

theorem projectStep_congr (opts opts' : ParseOptions)
    (hT : opts.TrimSpace = opts'.TrimSpace) (hS : opts.SkipEmpty = opts'.SkipEmpty)
    (hM : opts.HeaderMap = opts'.HeaderMap) (row : List String) :
    projectStep opts row = projectStep opts' row := by
  funext record e
  simp only [projectStep, hT, hS, hM]

theorem parseRows_congr (order : MapOrder) (opts opts' : ParseOptions)
    (hT : opts.TrimSpace = opts'.TrimSpace) (hS : opts.SkipEmpty = opts'.SkipEmpty)
    (hM : opts.HeaderMap = opts'.HeaderMap) (entries : List (Nat × String)) (r : Nat)
    (dataRows : List (List String)) (localData : List Record) :
    parseRows order opts entries r dataRows localData =
      parseRows order opts' entries r dataRows localData := by
  induction dataRows generalizing r localData with
  | nil => rfl
  | cons row rest ih =>
    simp only [parseRows, buildRecord, projectStep_congr opts opts' hT hS hM, ih]

/-- Two configurations that agree on the fields the row loop reads and choose
the same header row give the same outcome for a sheet. -/
theorem processSheet_congr (orbit : Char → Char → Bool) (order : MapOrder)
    (opts opts' : ParseOptions) (rows : List (List String))
    (hT : opts.TrimSpace = opts'.TrimSpace) (hS : opts.SkipEmpty = opts'.SkipEmpty)
    (hM : opts.HeaderMap = opts'.HeaderMap) (hF : opts.HeaderFilter = opts'.HeaderFilter)
    (hidx : headerRowIdx opts rows = headerRowIdx opts' rows) :
    processSheet orbit order opts rows = processSheet orbit order opts' rows := by
  unfold processSheet headerIndexes
  rw [hidx]
  by_cases hlen : rows.length = 0
  · rw [if_pos hlen, if_pos hlen]
  · rw [if_neg hlen, if_neg hlen]
    cases rows.get? (headerRowIdx opts' rows) with
    | none => rfl
    | some headers =>
      simp only [headerIndexesFrom_congr orbit opts opts' hT hF,
        parseRows_congr order opts opts' hT hS hM]

/-! ## Header row choice: the contract -/

/-- C11: for every non-empty sheet processed with `HeaderRowAutoDetect` off,
whatever the sheet holds and whatever `HeaderRowScanLimit` is, the header row
index is 0, the sheet is stored, `Headers` is `rows[0]` and the records are
the projections of `rows[1:]`. -/
theorem manual_header_row (orbit : Char → Char → Bool) (order : MapOrder)
    (opts : ParseOptions) (rows : List (List String)) (hne : rows ≠ [])
    (hauto : opts.HeaderRowAutoDetect = false) :
    headerRowIdx opts rows = 0 ∧
    ∃ res, processSheet orbit order opts rows = SheetOutcome.stored res ∧
      rows.head? = some res.Headers ∧
      res.Records = projectRows order opts (headerIndexes orbit opts res.Headers) rows.tail := by
  have h0 := headerRowIdx_manual opts rows hauto
  obtain ⟨headers, hh, hp⟩ := processSheet_stored orbit order opts rows hne
  rw [h0] at hh hp
  refine ⟨h0, _, hp, ?_, ?_⟩
  · cases rows with
    | nil => exact absurd rfl hne
    | cons r rest => simpa using hh
  · cases rows with
    | nil => exact absurd rfl hne
    | cons r rest => rfl

/-- Witness for C11: the eight-row scenario sheet, whose header would be
detected at row 2, read with detection off and a scan limit of 50. -/
theorem manual_header_row_witness :
    scenarioRows ≠ [] ∧
    ({ zeroOpts with HeaderRowScanLimit := 50 } : ParseOptions).HeaderRowAutoDetect = false ∧
    (headerRowIdx { zeroOpts with HeaderRowScanLimit := 50 } scenarioRows = 0 ∧
    ∃ res, processSheet asciiOrbit ascending { zeroOpts with HeaderRowScanLimit := 50 }
        scenarioRows = SheetOutcome.stored res ∧
      scenarioRows.head? = some res.Headers ∧
      res.Records = projectRows ascending { zeroOpts with HeaderRowScanLimit := 50 }
        (headerIndexes asciiOrbit { zeroOpts with HeaderRowScanLimit := 50 } res.Headers)
        scenarioRows.tail) :=
  ⟨by decide, rfl,
    manual_header_row asciiOrbit ascending { zeroOpts with HeaderRowScanLimit := 50 }
      scenarioRows (by decide) rfl⟩

/-- C12: with `HeaderRowAutoDetect` on, a `HeaderRowScanLimit` that is zero or
negative gives the same outcome as the limit 10 on every sheet; the header
row is the one `detectHeaderRow` finds with limit 10, so when no row among the
first 10 qualifies the header row is row 0. -/
theorem nonpositive_limit_is_ten (orbit : Char → Char → Bool) (order : MapOrder)
    (opts : ParseOptions) (rows : List (List String))
    (hauto : opts.HeaderRowAutoDetect = true) (hlim : opts.HeaderRowScanLimit ≤ 0) :
    processSheet orbit order opts rows =
      processSheet orbit order { opts with HeaderRowScanLimit := 10 } rows ∧
    headerRowIdx opts rows = detectHeaderRow rows 10 ∧
    ((∀ i, Qualifies rows i → 10 ≤ i) → headerRowIdx opts rows = 0) := by
  have hidx : headerRowIdx opts rows = detectHeaderRow rows 10 := by
    unfold headerRowIdx
    rw [hauto, if_pos rfl, if_pos hlim]
  have hidx' : headerRowIdx { opts with HeaderRowScanLimit := 10 } rows =
      detectHeaderRow rows 10 := by
    unfold headerRowIdx
    simp only [hauto, if_true]
    rfl
  refine ⟨processSheet_congr orbit order opts _ rows rfl rfl rfl rfl (hidx.trans hidx'.symm),
    hidx, fun hfar => ?_⟩
  rw [hidx, detectHeaderRow_eq]
  have hten := effectiveLimit_ten rows
  exact scanFrom_none rows _ 0 (fun j _ hj hq => by have := hfar j hq; omega)


/-- Witness for C12: a sheet whose only qualifying header row is row 10, read
with detection on and the scan limit 0; a scan of all 16 rows would find row
10, the extraction falls back to row 0. -/
theorem nonpositive_limit_is_ten_witness :
    autoDetectOpts.HeaderRowAutoDetect = true ∧ autoDetectOpts.HeaderRowScanLimit ≤ 0 ∧
    (processSheet asciiOrbit ascending autoDetectOpts lateHeaderSheet =
      processSheet asciiOrbit ascending { autoDetectOpts with HeaderRowScanLimit := 10 }
        lateHeaderSheet ∧
    headerRowIdx autoDetectOpts lateHeaderSheet = detectHeaderRow lateHeaderSheet 10 ∧
    ((∀ i, Qualifies lateHeaderSheet i → 10 ≤ i) →
      headerRowIdx autoDetectOpts lateHeaderSheet = 0)) ∧
    detectHeaderRow lateHeaderSheet 16 = 10 ∧ headerRowIdx autoDetectOpts lateHeaderSheet = 0 :=
  ⟨rfl, by decide,
    nonpositive_limit_is_ten asciiOrbit ascending autoDetectOpts lateHeaderSheet rfl (by decide),
    by decide, by decide⟩

/-! ## The result map -/

theorem ResultMap.get_after_set (m : ResultMap) (name : String) (r : SheetResult) (name' : String) :
    (m.set name r).get name' = if name = name' then some r else m.get name' := by
  induction m with
  | nil => simp [ResultMap.set, ResultMap.get]
  | cons p rest ih =>
    obtain ⟨a, b⟩ := p
    by_cases ha : a = name
    · subst ha
      by_cases hk : a = name' <;> simp [ResultMap.set, ResultMap.get, hk]
    · by_cases hk : name = name'
      · subst hk
        simp [ResultMap.set, ha, ResultMap.get, ih]
      · simp only [ResultMap.set, ha, if_false, ResultMap.get, ih, hk]

theorem commit_get (m : ResultMap) (o : String × SheetOutcome) (name : String) :
    (commit m o).get name =
      match o.2 with
      | SheetOutcome.stored r => if o.1 = name then some r else m.get name
      | _ => m.get name := by
  unfold commit
  cases o.2 <;> simp [ResultMap.get_after_set]

/-- An entry of the result map was stored by one of the goroutines. -/
theorem foldl_commit_get_mem (os : List (String × SheetOutcome)) (name : String)
    (r : SheetResult) (h : (os.foldl commit []).get name = some r) :
    (name, SheetOutcome.stored r) ∈ os := by
  induction os using List.reverseRecOn with
  | nil => simp [ResultMap.get] at h
  | append_singleton os o ih =>
    rw [List.foldl_append, List.foldl_cons, List.foldl_nil, commit_get] at h
    obtain ⟨n, out⟩ := o
    cases out with
    | skipped => exact List.mem_append_left _ (ih h)
    | outOfRange => exact List.mem_append_left _ (ih h)
    | stored r' =>
      simp only at h
      by_cases hn : n = name
      · rw [if_pos hn] at h
        cases h
        subst hn
        simp
      · rw [if_neg hn] at h
        exact List.mem_append_left _ (ih h)

/-- The result map has an entry for a name exactly when a goroutine stored a
result under it. -/
theorem foldl_commit_key_iff (os : List (String × SheetOutcome)) (name : String) :
    (∃ r, (os.foldl commit []).get name = some r) ↔
      ∃ r, (name, SheetOutcome.stored r) ∈ os := by
  induction os using List.reverseRecOn with
  | nil => simp [ResultMap.get]
  | append_singleton os o ih =>
    rw [List.foldl_append, List.foldl_cons, List.foldl_nil, commit_get]
    obtain ⟨n, out⟩ := o
    have hleft : (∃ r, (name, SheetOutcome.stored r) ∈ os) →
        ∃ r, (name, SheetOutcome.stored r) ∈ os ++ [(n, out)] :=
      fun ⟨r, hr⟩ => ⟨r, List.mem_append_left _ hr⟩
    cases out with
    | skipped =>
      simp only [ih]
      exact ⟨hleft, fun ⟨r, hr⟩ => ⟨r, by simpa using hr⟩⟩
    | outOfRange =>
      simp only [ih]
      exact ⟨hleft, fun ⟨r, hr⟩ => ⟨r, by simpa using hr⟩⟩
    | stored r' =>
      simp only
      by_cases hn : n = name
      · subst hn
        simp only [if_true]
        exact ⟨fun _ => ⟨r', by simp⟩, fun _ => ⟨r', rfl⟩⟩
      · simp only [hn, if_false, ih]
        refine ⟨hleft, fun ⟨r, hr⟩ => ⟨r, ?_⟩⟩
        rcases List.mem_append.mp hr with h | h
        · exact h
        · simp only [List.mem_singleton, Prod.mk.injEq] at h
          exact absurd h.1.symm hn

/-- What the goroutine of a sheet does, by what the reader returns. -/
theorem sheetTask_cases (orbit : Char → Char → Bool) (order : MapOrder) (opts : ParseOptions)
    (f : Workbook) (name : String) :
    ((∃ e, f.GetRows name = Except.error e) ∧
        sheetTask orbit order opts f name = SheetOutcome.skipped) ∨
    (f.GetRows name = Except.ok [] ∧
        sheetTask orbit order opts f name = SheetOutcome.skipped) ∨
    (∃ rows r, f.GetRows name = Except.ok rows ∧ rows ≠ [] ∧
        processSheet orbit order opts rows = SheetOutcome.stored r ∧
        sheetTask orbit order opts f name = SheetOutcome.stored r) := by
  unfold sheetTask
  cases hrows : f.GetRows name with
  | error e => exact Or.inl ⟨⟨e, rfl⟩, rfl⟩
  | ok rows =>
    by_cases hne : rows = []
    · subst hne
      exact Or.inr (Or.inl ⟨rfl, rfl⟩)
    · obtain ⟨headers, _, hp⟩ := processSheet_stored orbit order opts rows hne
      exact Or.inr (Or.inr ⟨rows, _, rfl, hne, hp, hp⟩)

theorem sheetTask_stored_iff (orbit : Char → Char → Bool) (order : MapOrder)
    (opts : ParseOptions) (f : Workbook) (name : String) :
    (∃ r, sheetTask orbit order opts f name = SheetOutcome.stored r) ↔
      ∃ rows, f.GetRows name = Except.ok rows ∧ rows ≠ [] := by
  rcases sheetTask_cases orbit order opts f name with ⟨⟨e, he⟩, hs⟩ | ⟨he, hs⟩ | ⟨rows, r, he, hne, _, hs⟩
  · rw [hs, he]
    simp
  · rw [hs, he]
    simp
  · rw [hs, he]
    exact ⟨fun _ => ⟨rows, rfl, hne⟩, fun _ => ⟨r, rfl⟩⟩

theorem sheetsOf_eq (f : Workbook) (opts : ParseOptions) :
    sheetsOf f opts = workingSheets f opts := by
  unfold sheetsOf workingSheets
  by_cases h : opts.SheetNames = []
  · simp [h]
  · rw [if_neg (by simpa using h), if_pos h]

/-- Once the document is open the call returns its result map: no goroutine
panics. -/
theorem ParseExcel_returned (orbit : Char → Char → Bool) (sched : Schedule) (f : Workbook)
    (opts : ParseOptions) :
    ParseExcel orbit sched (Except.ok f) opts = ParseOutcome.returned
      (((sched.writeOrder (sheetsOf f opts).enum).map
        (fun t => (t.2, sheetTask orbit (sched.mapOrder t.1) opts f t.2))).foldl commit []) := by
  unfold ParseExcel
  simp only
  rw [if_neg]
  simp only [List.any_eq_true, List.mem_map, decide_eq_true_eq, not_exists, not_and]
  rintro ⟨n, out⟩ ⟨t, _, ht⟩ hout
  simp only [Prod.mk.injEq] at ht
  simp only at hout
  rw [hout] at ht
  rcases sheetTask_cases orbit (sched.mapOrder t.1) opts f t.2 with
    ⟨_, hs⟩ | ⟨_, hs⟩ | ⟨_, _, _, _, _, hs⟩ <;> rw [hs] at ht <;> cases ht.2

/-- The result map has an entry for a sheet exactly when the sheet is in the
working list and the reader returns at least one row for it. -/
theorem ParseExcel_entry_iff (orbit : Char → Char → Bool) (sched : Schedule) (f : Workbook)
    (opts : ParseOptions) (hs : sched.Valid) (name : String) :
    (∃ r, ((((sched.writeOrder (sheetsOf f opts).enum).map
        (fun t => (t.2, sheetTask orbit (sched.mapOrder t.1) opts f t.2))).foldl commit []).get
          name) = some r) ↔
      name ∈ workingSheets f opts ∧ ∃ rows, f.GetRows name = Except.ok rows ∧ rows ≠ [] := by
  rw [foldl_commit_key_iff, ← sheetsOf_eq]
  constructor
  · rintro ⟨r, hr⟩
    obtain ⟨t, ht, heq⟩ := List.mem_map.mp hr
    simp only [Prod.mk.injEq] at heq
    have hmem : t ∈ (sheetsOf f opts).enum := (hs.2 _).mem_iff.mp ht
    have hname : t.2 ∈ sheetsOf f opts := by
      have := List.mem_map_of_mem Prod.snd hmem
      rwa [List.enum_map_snd] at this
    rw [heq.1] at hname heq
    exact ⟨hname, (sheetTask_stored_iff orbit _ opts f name).mp ⟨r, heq.2⟩⟩
  · rintro ⟨hname, hrows⟩
    rw [← List.enum_map_snd (sheetsOf f opts)] at hname
    obtain ⟨t, ht, heq⟩ := List.mem_map.mp hname
    obtain ⟨r, hr⟩ := (sheetTask_stored_iff orbit (sched.mapOrder t.1) opts f name).mpr hrows
    refine ⟨r, List.mem_map.mpr ⟨t, (hs.2 _).mem_iff.mpr ht, ?_⟩⟩
    rw [heq, hr]

/-- Every entry of the result map is the stored outcome of processing the rows
the reader returned for that sheet. -/
theorem ParseExcel_entry (orbit : Char → Char → Bool) (sched : Schedule) (f : Workbook)
    (opts : ParseOptions) (name : String) (r : SheetResult)
    (h : ((((sched.writeOrder (sheetsOf f opts).enum).map
        (fun t => (t.2, sheetTask orbit (sched.mapOrder t.1) opts f t.2))).foldl commit []).get
          name) = some r) :
    ∃ g rows, f.GetRows name = Except.ok rows ∧
      processSheet orbit (sched.mapOrder g) opts rows = SheetOutcome.stored r := by
  obtain ⟨t, _, heq⟩ := List.mem_map.mp (foldl_commit_get_mem _ name r h)
  simp only [Prod.mk.injEq] at heq
  rcases sheetTask_cases orbit (sched.mapOrder t.1) opts f t.2 with
    ⟨_, hs⟩ | ⟨_, hs⟩ | ⟨rows, r', he, _, hp, hs⟩
  · rw [hs] at heq
    cases heq.2
  · rw [hs] at heq
    cases heq.2
  · rw [hs] at heq
    cases heq.2
    rw [heq.1] at he
    exact ⟨t.1, rows, he, hp⟩


/-! ## Invariants of every sheet result -/

/-- C13: every `SheetResult` produced satisfies `RecordCount = len(Records)`:
the one stored for a sheet by its goroutine, and so every entry of the result
map a call returns. -/
theorem record_count_eq (orbit : Char → Char → Bool) (order : MapOrder) (opts : ParseOptions)
    (rows : List (List String)) (res : SheetResult)
    (hres : processSheet orbit order opts rows = SheetOutcome.stored res) :
    res.RecordCount = res.Records.length ∧
    ∀ (sched : Schedule) (f : Workbook) (result : ResultMap),
      ParseExcel orbit sched (Except.ok f) opts = ParseOutcome.returned result →
      ∀ name r, result.get name = some r → r.RecordCount = r.Records.length := by
  have one : ∀ (order : MapOrder) (rows : List (List String)) (res : SheetResult),
      processSheet orbit order opts rows = SheetOutcome.stored res →
      res.RecordCount = res.Records.length := by
    intro order rows res hres
    have hne : rows ≠ [] := by
      intro h0
      subst h0
      simp [processSheet] at hres
    obtain ⟨headers, _, hp⟩ := processSheet_stored orbit order opts rows hne
    rw [hp] at hres
    cases hres
    rfl
  refine ⟨one order rows res hres, fun sched f result hret name r hget => ?_⟩
  rw [ParseExcel_returned] at hret
  cases hret
  obtain ⟨g, rows', _, hp⟩ := ParseExcel_entry orbit sched f opts name r hget
  exact one _ rows' r hp

/-- Witness for C13: the filter-and-rename sheet, stored with one record and
the count 1. -/
theorem record_count_eq_witness :
    processSheet asciiOrbit ascending filterRenameOpts filterRenameSheet =
      SheetOutcome.stored ⟨["Name", "Amount", "Note"], [[("Name", "Bob"), ("amt", "5")]], 1⟩ ∧
    ((1 : Nat) = [[("Name", "Bob"), ("amt", "5")]].length ∧
    ∀ (sched : Schedule) (f : Workbook) (result : ResultMap),
      ParseExcel asciiOrbit sched (Except.ok f) filterRenameOpts =
        ParseOutcome.returned result →
      ∀ name r, result.get name = some r → r.RecordCount = r.Records.length) :=
  ⟨by decide,
    record_count_eq asciiOrbit ascending filterRenameOpts filterRenameSheet
      ⟨["Name", "Amount", "Note"], [[("Name", "Bob"), ("amt", "5")]], 1⟩ (by decide)⟩

/-- C14: every record of every `SheetResult` produced has at least one field;
a data row whose projection has no field contributes no record, so the empty
record never occurs in `Records`.  This holds for the result stored for a
sheet and so for every entry of the result map a call returns. -/
theorem records_nonempty (orbit : Char → Char → Bool) (order : MapOrder) (opts : ParseOptions)
    (rows : List (List String)) (res : SheetResult)
    (hres : processSheet orbit order opts rows = SheetOutcome.stored res) :
    (∀ record ∈ res.Records, 0 < record.length ∧ ∃ k v, record.get k = some v) ∧
    ∀ (sched : Schedule) (f : Workbook) (result : ResultMap),
      ParseExcel orbit sched (Except.ok f) opts = ParseOutcome.returned result →
      ∀ name r, result.get name = some r →
        ∀ record ∈ r.Records, 0 < record.length ∧ ∃ k v, record.get k = some v := by
  have one : ∀ (order : MapOrder) (rows : List (List String)) (res : SheetResult),
      processSheet orbit order opts rows = SheetOutcome.stored res →
      ∀ record ∈ res.Records, 0 < record.length ∧ ∃ k v, record.get k = some v := by
    intro order rows res hres record hrec
    have hne : rows ≠ [] := by
      intro h0
      subst h0
      simp [processSheet] at hres
    obtain ⟨headers, _, hp⟩ := processSheet_stored orbit order opts rows hne
    rw [hp] at hres
    cases hres
    unfold projectRows at hrec
    have hpos : 0 < record.length := by simpa using (List.mem_filter.mp hrec).2
    exact ⟨hpos, (Record.ne_nil_iff record).mp (List.length_pos.mp hpos)⟩
  refine ⟨one order rows res hres, fun sched f result hret name r hget => ?_⟩
  rw [ParseExcel_returned] at hret
  cases hret
  obtain ⟨g, rows', _, hp⟩ := ParseExcel_entry orbit sched f opts name r hget
  exact one _ rows' r hp

/-- Witness for C14: the skip-empty sheet with a second data row of blanks,
which contributes no record. -/
theorem records_nonempty_witness :
    processSheet asciiOrbit ascending trimSkipOpts (trimSkipSheet ++ [["  ", ""]]) =
      SheetOutcome.stored ⟨["Name", "Amount"], [[("Name", "Bob")]], 1⟩ ∧
    ((∀ record ∈ [[("Name", "Bob")]],
      0 < List.length record ∧ ∃ k v, Record.get record k = some v) ∧
    ∀ (sched : Schedule) (f : Workbook) (result : ResultMap),
      ParseExcel asciiOrbit sched (Except.ok f) trimSkipOpts = ParseOutcome.returned result →
      ∀ name r, result.get name = some r →
        ∀ record ∈ r.Records, 0 < record.length ∧ ∃ k v, record.get k = some v) :=
  ⟨by decide,
    records_nonempty asciiOrbit ascending trimSkipOpts (trimSkipSheet ++ [["  ", ""]])
      ⟨["Name", "Amount"], [[("Name", "Bob")]], 1⟩ (by decide)⟩

/-! ## Failing and empty sheets -/

/-- C15 as stated fails: when reading `X` fails and the other listed sheet `Y`
has no rows, the call returns a result map without an entry for `Y`. -/
theorem isolation_counterexample :
    ¬ (∀ (orbit : Char → Char → Bool) (sched : Schedule) (f : Workbook) (opts : ParseOptions)
        (X : String), sched.Valid → X ∈ workingSheets f opts →
        (∀ name ∈ workingSheets f opts, (∃ e, f.GetRows name = Except.error e) ↔ name = X) →
        ∃ result, ParseExcel orbit sched (Except.ok f) opts = ParseOutcome.returned result ∧
          result.get X = none ∧
          ∀ name ∈ workingSheets f opts, name ≠ X → ∃ r, result.get name = some r) := by
  intro h
  have hvalid : inLaunchOrder.Valid :=
    ⟨fun _ _ _ => List.Perm.refl _, fun _ => List.Perm.refl _⟩
  have hfail : ∀ name ∈ workingSheets failingAndEmpty zeroOpts,
      (∃ e, failingAndEmpty.GetRows name = Except.error e) ↔ name = "X" := by
    intro name _
    by_cases hn : name = "X"
    · subst hn
      exact ⟨fun _ => rfl, fun _ => ⟨"broken sheet", rfl⟩⟩
    · simp [failingAndEmpty, hn]
  obtain ⟨result, hret, _, hall⟩ :=
    h asciiOrbit inLaunchOrder failingAndEmpty zeroOpts "X" hvalid (by decide) hfail
  have hres : ParseExcel asciiOrbit inLaunchOrder (Except.ok failingAndEmpty) zeroOpts =
      ParseOutcome.returned [] := by decide
  rw [hres] at hret
  cases hret
  obtain ⟨r, hr⟩ := hall "Y" (by decide) (by decide)
  simp [ResultMap.get] at hr

/-- C15 amended: when the reader fails for exactly one sheet `X` of the working
list, the call returns successfully, the result has no entry for `X`, and it
has an entry for every other sheet of the working list for which the reader
returns at least one row (and for no other: a sheet without rows has no entry). -/
theorem isolation_of_failure (orbit : Char → Char → Bool) (sched : Schedule) (f : Workbook)
    (opts : ParseOptions) (X : String) (hs : sched.Valid) (hX : X ∈ workingSheets f opts)
    (hfail : ∀ name ∈ workingSheets f opts,
      (∃ e, f.GetRows name = Except.error e) ↔ name = X) :
    ∃ result, ParseExcel orbit sched (Except.ok f) opts = ParseOutcome.returned result ∧
      result.get X = none ∧
      ∀ name ∈ workingSheets f opts, name ≠ X →
        ((∃ r, result.get name = some r) ↔
          ∃ rows, f.GetRows name = Except.ok rows ∧ rows ≠ []) := by
  refine ⟨_, ParseExcel_returned orbit sched f opts, ?_, fun name hname _ => ?_⟩
  · obtain ⟨e, he⟩ := (hfail X hX).mpr rfl
    cases hget : ResultMap.get _ X with
    | none => rfl
    | some r =>
      obtain ⟨_, rows, hrows, _⟩ := (ParseExcel_entry_iff orbit sched f opts hs X).mp ⟨r, hget⟩
      rw [he] at hrows
      cases hrows
  · rw [ParseExcel_entry_iff orbit sched f opts hs name]
    exact ⟨fun h => h.2, fun h => ⟨hname, h⟩⟩


theorem failingAndFilled_fails : ∀ name ∈ workingSheets failingAndFilled zeroOpts,
    (∃ e, failingAndFilled.GetRows name = Except.error e) ↔ name = "X" := by
  intro name _
  by_cases hX : name = "X"
  · subst hX
    exact ⟨fun _ => rfl, fun _ => ⟨"broken sheet", rfl⟩⟩
  · by_cases hY : name = "Y"
    · simp [failingAndFilled, hX, hY]
    · by_cases hZ : name = "Z" <;> simp [failingAndFilled, hX, hY, hZ]

theorem inLaunchOrder_valid : inLaunchOrder.Valid :=
  ⟨fun _ _ _ => List.Perm.refl _, fun _ => List.Perm.refl _⟩

/-- Witness for C15 amended: reading `X` fails, `Y` and `Z` hold rows. -/
theorem isolation_of_failure_witness :
    inLaunchOrder.Valid ∧ "X" ∈ workingSheets failingAndFilled zeroOpts ∧
    (∀ name ∈ workingSheets failingAndFilled zeroOpts,
      (∃ e, failingAndFilled.GetRows name = Except.error e) ↔ name = "X") ∧
    ∃ result, ParseExcel asciiOrbit inLaunchOrder (Except.ok failingAndFilled) zeroOpts =
        ParseOutcome.returned result ∧
      result.get "X" = none ∧
      ∀ name ∈ workingSheets failingAndFilled zeroOpts, name ≠ "X" →
        ((∃ r, result.get name = some r) ↔
          ∃ rows, failingAndFilled.GetRows name = Except.ok rows ∧ rows ≠ []) :=
  ⟨inLaunchOrder_valid, by decide, failingAndFilled_fails,
    isolation_of_failure asciiOrbit inLaunchOrder failingAndFilled zeroOpts "X"
      inLaunchOrder_valid (by decide) failingAndFilled_fails⟩

/-- A sheet that holds a header row only is stored with no records. -/
theorem processSheet_header_only (orbit : Char → Char → Bool) (order : MapOrder)
    (opts : ParseOptions) (hdr : List String) :
    processSheet orbit order opts [hdr] = SheetOutcome.stored ⟨hdr, [], 0⟩ := by
  obtain ⟨headers, hh, hp⟩ := processSheet_stored orbit order opts [hdr] (by simp)
  have hlt := headerRowIdx_lt opts [hdr] (by simp)
  have h0 : headerRowIdx opts [hdr] = 0 := by
    simp only [List.length_singleton] at hlt
    omega
  rw [h0] at hh hp
  have hhdr : headers = hdr := by simpa using hh.symm
  subst hhdr
  rw [hp]
  rfl

/-- C16: once the document is open the call returns a result map that has an
entry for a sheet name exactly when the name is in the working sheet list
(`SheetNames` when non-empty, otherwise the full sheet list) and the reader
returns at least one row for it without error.  A listed sheet with zero rows
has no entry; a listed sheet with only a header row has an entry with that
header row and zero records. -/
theorem result_entries (orbit : Char → Char → Bool) (sched : Schedule) (f : Workbook)
    (opts : ParseOptions) (hs : sched.Valid) :
    ∃ result, ParseExcel orbit sched (Except.ok f) opts = ParseOutcome.returned result ∧
      (∀ name, (∃ r, result.get name = some r) ↔
        name ∈ workingSheets f opts ∧ ∃ rows, f.GetRows name = Except.ok rows ∧ rows ≠ []) ∧
      (∀ name, f.GetRows name = Except.ok [] → result.get name = none) ∧
      (∀ name ∈ workingSheets f opts, ∀ hdr, f.GetRows name = Except.ok [hdr] →
        ∃ r, result.get name = some r ∧ r.Headers = hdr ∧ r.Records = [] ∧
          r.RecordCount = 0) := by
  refine ⟨_, ParseExcel_returned orbit sched f opts,
    ParseExcel_entry_iff orbit sched f opts hs, fun name hrows => ?_,
    fun name hname hdr hrows => ?_⟩
  · cases hget : ResultMap.get _ name with
    | none => rfl
    | some r =>
      obtain ⟨_, rows, hrows', hne⟩ :=
        (ParseExcel_entry_iff orbit sched f opts hs name).mp ⟨r, hget⟩
      rw [hrows] at hrows'
      cases hrows'
      exact absurd rfl hne
  · obtain ⟨r, hr⟩ := (ParseExcel_entry_iff orbit sched f opts hs name).mpr
      ⟨hname, [hdr], hrows, by simp⟩
    obtain ⟨g, rows, hrows', hp⟩ := ParseExcel_entry orbit sched f opts name r hr
    rw [hrows] at hrows'
    cases hrows'
    rw [processSheet_header_only] at hp
    cases hp
    exact ⟨_, hr, rfl, rfl, rfl⟩

/-- Witness for C16: the document with a failing sheet, a filled sheet and a
header-only sheet. -/
theorem result_entries_witness :
    inLaunchOrder.Valid ∧
    ∃ result, ParseExcel asciiOrbit inLaunchOrder (Except.ok failingAndFilled) zeroOpts =
        ParseOutcome.returned result ∧
      (∀ name, (∃ r, result.get name = some r) ↔
        name ∈ workingSheets failingAndFilled zeroOpts ∧
          ∃ rows, failingAndFilled.GetRows name = Except.ok rows ∧ rows ≠ []) ∧
      (∀ name, failingAndFilled.GetRows name = Except.ok [] → result.get name = none) ∧
      (∀ name ∈ workingSheets failingAndFilled zeroOpts, ∀ hdr,
        failingAndFilled.GetRows name = Except.ok [hdr] →
        ∃ r, result.get name = some r ∧ r.Headers = hdr ∧ r.Records = [] ∧
          r.RecordCount = 0) :=
  ⟨inLaunchOrder_valid, result_entries asciiOrbit inLaunchOrder failingAndFilled zeroOpts
    inLaunchOrder_valid⟩

/-! ## Filtered-out columns -/

theorem projectStep_agree (opts : ParseOptions) (row₁ row₂ : List String) (record : Record)
    (e : Nat × String) (hlen : row₁.length = row₂.length)
    (hcell : row₁.getD e.1 "" = row₂.getD e.1 "") :
    projectStep opts row₁ record e = projectStep opts row₂ record e := by
  simp only [projectStep, hlen, hcell]

theorem buildRecord_agree (orbit : Char → Char → Bool) (opts : ParseOptions)
    (headers row₁ row₂ : List String) (visit : List (Nat × String))
    (hvisit : ∀ e ∈ visit, e ∈ headerIndexes orbit opts headers)
    (hagree : AgreeOnRetained orbit opts headers row₁ row₂) :
    buildRecord opts visit row₁ = buildRecord opts visit row₂ := by
  unfold buildRecord
  apply List.foldl_ext
  intro record e he
  exact projectStep_agree opts row₁ row₂ record e hagree.1
    (hagree.2 e.1 ((mem_headerIndexes orbit opts headers e).mp (hvisit e he)).1)

theorem projectRows_agree (orbit : Char → Char → Bool) (order : MapOrder)
    (opts : ParseOptions) (headers : List String) (data₁ data₂ : List (List String))
    (horder : order.Valid)
    (hagree : List.Forall₂ (AgreeOnRetained orbit opts headers) data₁ data₂) :
    projectRows order opts (headerIndexes orbit opts headers) data₁ =
      projectRows order opts (headerIndexes orbit opts headers) data₂ := by
  unfold projectRows List.enum
  congr 1
  generalize 0 = start
  induction hagree generalizing start with
  | nil => rfl
  | cons hab _ ih =>
    simp only [List.enumFrom_cons, List.map_cons, ih]
    rw [buildRecord_agree orbit opts headers _ _ _
      (fun e he => (horder start _).mem_iff.mp he) hab]


/-- C18: with `HeaderRowAutoDetect` off (and any `HeaderFilter`, a non-empty
one in particular), two sheets with the same header row whose data rows have
the same lengths and agree on every cell of the columns whose header passes
the filter give the same stored result, records included, when the map ranges
yield the same orders in both runs; and when the retained headers have
pairwise distinct output keys they give identical results whatever valid
orders the two runs see.  The output does not depend on a cell of a
filtered-out column. -/
theorem filtered_columns_unread (orbit : Char → Char → Bool) (order : MapOrder)
    (opts : ParseOptions) (hdr : List String) (data₁ data₂ : List (List String))
    (horder : order.Valid) (hauto : opts.HeaderRowAutoDetect = false)
    (hagree : List.Forall₂ (AgreeOnRetained orbit opts hdr) data₁ data₂) :
    (∃ res, processSheet orbit order opts (hdr :: data₁) = SheetOutcome.stored res ∧
      processSheet orbit order opts (hdr :: data₂) = SheetOutcome.stored res) ∧
    ∀ order' : MapOrder, order'.Valid → DistinctKeys orbit opts hdr →
      SheetOutcome.Same (processSheet orbit order opts (hdr :: data₁))
        (processSheet orbit order' opts (hdr :: data₂)) := by
  have hstored : ∀ (o : MapOrder) (data : List (List String)),
      processSheet orbit o opts (hdr :: data) = SheetOutcome.stored
        { Headers := hdr,
          Records := projectRows o opts (headerIndexes orbit opts hdr) data,
          RecordCount := (projectRows o opts (headerIndexes orbit opts hdr) data).length } := by
    intro o data
    obtain ⟨headers, hh, hp⟩ := processSheet_stored orbit o opts (hdr :: data) (by simp)
    rw [headerRowIdx_manual opts _ hauto] at hh hp
    have hhdr : headers = hdr := by simpa using hh.symm
    subst hhdr
    exact hp
  have heq := projectRows_agree orbit order opts hdr data₁ data₂ horder hagree
  refine ⟨⟨_, hstored order data₁, ?_⟩, fun order' horder' hdist => ?_⟩
  · rw [hstored order data₂, heq]
  · rw [hstored order data₁, hstored order' data₂, heq]
    have hrec := projectRows_same orbit order order' opts hdr data₂ horder horder' hdist
    exact ⟨rfl, hrec, hrec.length_eq⟩

/-- Witness for C18: the filter keeps `Name` only, and the two sheets differ in
the cells of the filtered-out column `Secret`. -/
theorem filtered_columns_unread_witness :
    ascending.Valid ∧ nameOnlyOpts.HeaderRowAutoDetect = false ∧
    List.Forall₂ (AgreeOnRetained asciiOrbit nameOnlyOpts ["Name", "Secret"])
      [["Bob", "alpha"], ["Sue", "beta"]] [["Bob", "gamma"], ["Sue", "delta"]] ∧
    ((∃ res, processSheet asciiOrbit ascending nameOnlyOpts
          (["Name", "Secret"] :: [["Bob", "alpha"], ["Sue", "beta"]]) =
        SheetOutcome.stored res ∧
      processSheet asciiOrbit ascending nameOnlyOpts
          (["Name", "Secret"] :: [["Bob", "gamma"], ["Sue", "delta"]]) =
        SheetOutcome.stored res) ∧
    ∀ order' : MapOrder, order'.Valid →
      DistinctKeys asciiOrbit nameOnlyOpts ["Name", "Secret"] →
      SheetOutcome.Same
        (processSheet asciiOrbit ascending nameOnlyOpts
          (["Name", "Secret"] :: [["Bob", "alpha"], ["Sue", "beta"]]))
        (processSheet asciiOrbit order' nameOnlyOpts
          (["Name", "Secret"] :: [["Bob", "gamma"], ["Sue", "delta"]]))) :=
  have hrow : ∀ a b c : String,
      AgreeOnRetained asciiOrbit nameOnlyOpts ["Name", "Secret"] [a, b] [a, c] := by
    intro a b c
    refine ⟨rfl, fun i hi => ?_⟩
    have hi2 : i < 2 := hi.1
    interval_cases i
    · rfl
    · exfalso
      revert hi
      decide
  have hagree : List.Forall₂ (AgreeOnRetained asciiOrbit nameOnlyOpts ["Name", "Secret"])
      [["Bob", "alpha"], ["Sue", "beta"]] [["Bob", "gamma"], ["Sue", "delta"]] :=
    List.Forall₂.cons (hrow _ _ _) (List.Forall₂.cons (hrow _ _ _) List.Forall₂.nil)
  ⟨fun _ _ => List.Perm.refl _, rfl, hagree,
    filtered_columns_unread asciiOrbit ascending nameOnlyOpts ["Name", "Secret"]
      [["Bob", "alpha"], ["Sue", "beta"]] [["Bob", "gamma"], ["Sue", "delta"]]
      (fun _ _ => List.Perm.refl _) rfl hagree⟩

/-! ## Safety of the header row index -/

/-- C19: for every non-empty list of rows and every integer scan limit the
index `i` returned by `detectHeaderRow` is 0 or satisfies `i + 4 < len(rows)`;
it is a valid row index, a sheet with fewer than 5 rows gets header row 0, and
in `ParseExcel` neither `rows[i]` nor `rows[i+1:]` goes out of range for any
configuration. -/
theorem detected_index_in_range (rows : List (List String)) (scanLimit : Int)
    (hne : rows ≠ []) :
    (detectHeaderRow rows scanLimit = 0 ∨ detectHeaderRow rows scanLimit + 4 < rows.length) ∧
    detectHeaderRow rows scanLimit < rows.length ∧
    (rows.length < 5 → detectHeaderRow rows scanLimit = 0) ∧
    ∀ (orbit : Char → Char → Bool) (order : MapOrder) (opts : ParseOptions),
      headerRowIdx opts rows < rows.length ∧
      processSheet orbit order opts rows ≠ SheetOutcome.outOfRange := by
  have hpos : 0 < rows.length := List.length_pos.mpr hne
  have hmain : detectHeaderRow rows scanLimit = 0 ∨
      detectHeaderRow rows scanLimit + 4 < rows.length := by
    rw [detectHeaderRow_eq]
    rcases scanFrom_zero_or_qualifies rows (effectiveLimit rows scanLimit) 0 with h | h
    · exact Or.inl h
    · exact Or.inr h.rows_after
  refine ⟨hmain, ?_, fun hshort => ?_, fun orbit order opts => ?_⟩
  · rcases hmain with h | h <;> omega
  · rcases hmain with h | h
    · exact h
    · omega
  · refine ⟨headerRowIdx_lt opts rows hne, ?_⟩
    obtain ⟨_, _, hp⟩ := processSheet_stored orbit order opts rows hne
    rw [hp]
    simp

/-- Witness for C19: the eight-row scenario sheet, where row 2 is detected and
is followed by five rows. -/
theorem detected_index_in_range_witness :
    scenarioRows ≠ [] ∧
    ((detectHeaderRow scenarioRows 10 = 0 ∨
      detectHeaderRow scenarioRows 10 + 4 < scenarioRows.length) ∧
    detectHeaderRow scenarioRows 10 < scenarioRows.length ∧
    (scenarioRows.length < 5 → detectHeaderRow scenarioRows 10 = 0) ∧
    ∀ (orbit : Char → Char → Bool) (order : MapOrder) (opts : ParseOptions),
      headerRowIdx opts scenarioRows < scenarioRows.length ∧
      processSheet orbit order opts scenarioRows ≠ SheetOutcome.outOfRange) :=
  ⟨by decide, detected_index_in_range scenarioRows 10 (by decide)⟩

/-! ## Visiting order under distinct output keys -/

/-- C20: when the retained header columns have pairwise distinct output keys,
the record built for a row holds the same key/value pairs for every order in
which the retained header indices are visited, and it is empty for one order
exactly when it is empty for the other; so the records collected for the data
rows of a sheet are the same for any two valid map iteration orders. -/
theorem visiting_order_irrelevant (orbit : Char → Char → Bool) (opts : ParseOptions)
    (headers row : List String) (visit₁ visit₂ : List (Nat × String))
    (h₁ : visit₁.Perm (headerIndexes orbit opts headers))
    (h₂ : visit₂.Perm (headerIndexes orbit opts headers))
    (hdist : DistinctKeys orbit opts headers) :
    Record.Same (buildRecord opts visit₁ row) (buildRecord opts visit₂ row) ∧
    (0 < (buildRecord opts visit₁ row).length ↔ 0 < (buildRecord opts visit₂ row).length) ∧
    ∀ (order₁ order₂ : MapOrder) (dataRows : List (List String)),
      order₁.Valid → order₂.Valid →
      List.Forall₂ Record.Same
        (projectRows order₁ opts (headerIndexes orbit opts headers) dataRows)
        (projectRows order₂ opts (headerIndexes orbit opts headers) dataRows) := by
  have hnd := writes_nodup orbit opts headers row _ (List.Perm.refl _) hdist
  have hsame : Record.Same (buildRecord opts visit₁ row) (buildRecord opts visit₂ row) :=
    (buildRecord_perm opts row _ _ h₁ hnd).trans (buildRecord_perm opts row _ _ h₂ hnd).symm
  exact ⟨hsame, hsame.length_pos_iff, fun order₁ order₂ dataRows ho₁ ho₂ =>
    projectRows_same orbit order₁ order₂ opts headers dataRows ho₁ ho₂ hdist⟩

/-- Witness for C20: the filter-and-rename scenario visited from left to right
and from right to left. -/
theorem visiting_order_irrelevant_witness :
    [(0, "Name"), (1, "Amount")].Perm
        (headerIndexes asciiOrbit filterRenameOpts ["Name", "Amount", "Note"]) ∧
    [(1, "Amount"), (0, "Name")].Perm
        (headerIndexes asciiOrbit filterRenameOpts ["Name", "Amount", "Note"]) ∧
    DistinctKeys asciiOrbit filterRenameOpts ["Name", "Amount", "Note"] ∧
    (Record.Same
      (buildRecord filterRenameOpts [(0, "Name"), (1, "Amount")] ["Bob", "5", "skip-me"])
      (buildRecord filterRenameOpts [(1, "Amount"), (0, "Name")] ["Bob", "5", "skip-me"]) ∧
    (0 < (buildRecord filterRenameOpts [(0, "Name"), (1, "Amount")]
          ["Bob", "5", "skip-me"]).length ↔
      0 < (buildRecord filterRenameOpts [(1, "Amount"), (0, "Name")]
          ["Bob", "5", "skip-me"]).length) ∧
    ∀ (order₁ order₂ : MapOrder) (dataRows : List (List String)),
      order₁.Valid → order₂.Valid →
      List.Forall₂ Record.Same
        (projectRows order₁ filterRenameOpts
          (headerIndexes asciiOrbit filterRenameOpts ["Name", "Amount", "Note"]) dataRows)
        (projectRows order₂ filterRenameOpts
          (headerIndexes asciiOrbit filterRenameOpts ["Name", "Amount", "Note"]) dataRows)) :=
  ⟨by decide, by decide, distinctKeys_filterRename asciiOrbit,
    visiting_order_irrelevant asciiOrbit filterRenameOpts ["Name", "Amount", "Note"]
      ["Bob", "5", "skip-me"] [(0, "Name"), (1, "Amount")] [(1, "Amount"), (0, "Name")]
      (by decide) (by decide) (distinctKeys_filterRename asciiOrbit)⟩


/-! ## The admission gate -/

theorem countP_set_admitted (l : List Phase) (g : Nat) (q p : Phase)
    (h : l.get? g = some q) :
    (l.set g p).countP Phase.admitted + (if q.admitted then 1 else 0) =
      l.countP Phase.admitted + (if p.admitted then 1 else 0) := by
  induction l generalizing g with
  | nil => simp at h
  | cons x xs ih =>
    cases g with
    | zero =>
      simp only [List.get?_cons_zero, Option.some.injEq] at h
      subst h
      simp only [List.set_cons_zero, List.countP_cons]
      omega
    | succ g =>
      simp only [List.get?_cons_succ] at h
      have := ih g h
      simp only [List.set_cons_succ, List.countP_cons]
      omega

/-- The gate invariant: the goroutines that hold a slot are as many as the
values buffered in `sema`, and these never exceed the capacity. -/
theorem poolStep_invariant (k : Nat) (s s' : PoolState) (e : PoolEvent)
    (hstep : poolStep (some k) s e = some s')
    (hinv : admittedCount s = s.buffered ∧ s.buffered ≤ k) :
    admittedCount s' = s'.buffered ∧ s'.buffered ≤ k := by
  unfold admittedCount at hinv ⊢
  cases e with
  | acquire g =>
    simp only [poolStep] at hstep
    split at hstep
    · rename_i hg
      split at hstep
      · rename_i hlt
        cases hstep
        have := countP_set_admitted s.phases g Phase.waiting Phase.working hg
        simp only [Phase.admitted, if_true, Bool.false_eq_true, if_false] at this
        simp only
        omega
      · cases hstep
    · cases hstep
  | lock g =>
    simp only [poolStep] at hstep
    split at hstep
    · rename_i hg
      cases hstep
      have := countP_set_admitted s.phases g Phase.working Phase.writing hg.1
      simp only [Phase.admitted, if_true, Bool.false_eq_true, if_false] at this
      simp only
      omega
    · cases hstep
  | unlock g =>
    simp only [poolStep] at hstep
    split at hstep
    · rename_i hg
      cases hstep
      have := countP_set_admitted s.phases g Phase.writing Phase.wrote hg
      simp only [Phase.admitted, if_true, Bool.false_eq_true, if_false] at this
      simp only
      omega
    · cases hstep
  | release g =>
    simp only [poolStep] at hstep
    split at hstep
    · rename_i hg
      split at hstep
      · rename_i hpos
        cases hstep
        simp only
        rcases hg with hg | hg
        · have := countP_set_admitted s.phases g Phase.working Phase.exited hg
          simp only [Phase.admitted, if_true, Bool.false_eq_true, if_false] at this
          omega
        · have := countP_set_admitted s.phases g Phase.wrote Phase.exited hg
          simp only [Phase.admitted, if_true, Bool.false_eq_true, if_false] at this
          omega
      · cases hstep
    · cases hstep

theorem poolRun_invariant (k : Nat) (events : List PoolEvent) (s s' : PoolState)
    (hrun : poolRun (some k) s events = some s')
    (hinv : admittedCount s = s.buffered ∧ s.buffered ≤ k) :
    admittedCount s' = s'.buffered ∧ s'.buffered ≤ k := by
  induction events generalizing s with
  | nil =>
    simp only [poolRun, Option.some.injEq] at hrun
    subst hrun
    exact hinv
  | cons e rest ih =>
    simp only [poolRun] at hrun
    cases hstep : poolStep (some k) s e with
    | none => rw [hstep] at hrun; cases hrun
    | some s₁ =>
      rw [hstep] at hrun
      exact ih s₁ hrun (poolStep_invariant k s s₁ e hstep hinv)

theorem poolInit_invariant (n k : Nat) :
    admittedCount (poolInit n) = (poolInit n).buffered ∧ (poolInit n).buffered ≤ k := by
  simp [admittedCount, poolInit, List.countP_replicate, Phase.admitted]

/-- C17: for every `MaxConcurrentSheets = k > 0`, every number of goroutines
and every interleaving of their steps, the number of goroutines that have
acquired a slot of `sema` and not yet released it equals the number of values
buffered in the channel and never exceeds `k`. -/
theorem admission_bound (opts : ParseOptions) (hk : 0 < opts.MaxConcurrentSheets) (n : Nat)
    (events : List PoolEvent) (s : PoolState)
    (hrun : poolRun (semaCapacity opts) (poolInit n) events = some s) :
    (admittedCount s : Int) ≤ opts.MaxConcurrentSheets ∧ admittedCount s = s.buffered := by
  have hcap : semaCapacity opts = some opts.MaxConcurrentSheets.toNat := by
    unfold semaCapacity
    rw [if_pos hk]
  rw [hcap] at hrun
  have hinv := poolRun_invariant _ events _ s hrun (poolInit_invariant n _)
  refine ⟨?_, hinv.1⟩
  have := hinv.2
  omega

/-- Witness for C17: three goroutines under a bound of 2; after two of them
are admitted and one holds `mu`, two slots are taken and the third goroutine
cannot pass the admission point. -/
theorem admission_bound_witness :
    0 < twoAtATimeOpts.MaxConcurrentSheets ∧
    poolRun (semaCapacity twoAtATimeOpts) (poolInit 3)
        [PoolEvent.acquire 0, PoolEvent.acquire 1, PoolEvent.lock 1] =
      some ⟨[Phase.working, Phase.writing, Phase.waiting], 2, true⟩ ∧
    ((admittedCount ⟨[Phase.working, Phase.writing, Phase.waiting], 2, true⟩ : Int) ≤
        twoAtATimeOpts.MaxConcurrentSheets ∧
      admittedCount ⟨[Phase.working, Phase.writing, Phase.waiting], 2, true⟩ = 2) ∧
    poolStep (semaCapacity twoAtATimeOpts)
      ⟨[Phase.working, Phase.writing, Phase.waiting], 2, true⟩ (PoolEvent.acquire 2) = none :=
  ⟨by decide, by decide,
    admission_bound twoAtATimeOpts (by decide) 3
      [PoolEvent.acquire 0, PoolEvent.acquire 1, PoolEvent.lock 1]
      ⟨[Phase.working, Phase.writing, Phase.waiting], 2, true⟩ (by decide),
    by decide⟩


end ExcelParser
